import Mathlib

/-!
Shallow embedding of the inventory reservation subsystem of the
e-commerce demo (`src/ecommerce-platform/src/core`):

* `InventoryItem`, `InventoryReservation` from `core/entities/inventory.py`
* `InMemoryInventoryRepository` from
  `core/repositories/in_memory_inventory_repository.py` (insertion-ordered
  dicts modelled as association lists with unique keys)
* `InventoryService` from `core/services/inventory_service.py`

Python integers are modelled as `Int`; `datetime.now()` is modelled as an
abstract `Nat` tick passed explicitly to every operation that reads the
clock.  An operation that raises `ValueError` in Python returns `none`
here; exception control flow of the service is modelled with `Except`.
-/

inductive ReservationStatus where
  | ACTIVE
  | CONFIRMED
  | CANCELLED
  | EXPIRED
deriving DecidableEq, Repr

/-- `InventoryItem` dataclass: per-product-per-warehouse stock counter.
The `_lock` field only serialises mutations and has no sequential
content, so it is not part of the state. -/
structure InventoryItem where
  product_id : String
  warehouse_id : String
  available_quantity : Int
  reserved_quantity : Int := 0
  total_received : Int := 0
  total_sold : Int := 0
  last_updated : Nat := 0
deriving DecidableEq, Repr

namespace InventoryItem

/-- `total_quantity` property: available + reserved. -/
def total_quantity (it : InventoryItem) : Int :=
  it.available_quantity + it.reserved_quantity

/-- `reserve`: raises on `qty ≤ 0` (`none`); otherwise moves `qty` from
available to reserved iff `available ≥ qty`, returning the success flag
and the updated item. -/
def reserve (it : InventoryItem) (quantity : Int) (now : Nat) :
    Option (Bool × InventoryItem) :=
  if quantity ≤ 0 then none
  else if it.available_quantity ≥ quantity then
    some (true,
      { it with
        available_quantity := it.available_quantity - quantity
        reserved_quantity := it.reserved_quantity + quantity
        last_updated := now })
  else some (false, it)

/-- `release_reservation`: raises on `qty ≤ 0`; otherwise moves
`min qty reserved` from reserved back to available and returns the
actual amount released. -/
def release_reservation (it : InventoryItem) (quantity : Int) (now : Nat) :
    Option (Int × InventoryItem) :=
  if quantity ≤ 0 then none
  else
    let actual_release := min quantity it.reserved_quantity
    some (actual_release,
      { it with
        reserved_quantity := it.reserved_quantity - actual_release
        available_quantity := it.available_quantity + actual_release
        last_updated := now })

/-- `confirm_reservation`: raises on `qty ≤ 0`; otherwise moves
`min qty reserved` from reserved into total_sold and returns the actual
amount confirmed. -/
def confirm_reservation (it : InventoryItem) (quantity : Int) (now : Nat) :
    Option (Int × InventoryItem) :=
  if quantity ≤ 0 then none
  else
    let actual_confirm := min quantity it.reserved_quantity
    some (actual_confirm,
      { it with
        reserved_quantity := it.reserved_quantity - actual_confirm
        total_sold := it.total_sold + actual_confirm
        last_updated := now })

/-- `add_stock`: raises on `qty ≤ 0`; otherwise adds to available and to
total_received. -/
def add_stock (it : InventoryItem) (quantity : Int) (now : Nat) :
    Option InventoryItem :=
  if quantity ≤ 0 then none
  else some
    { it with
      available_quantity := it.available_quantity + quantity
      total_received := it.total_received + quantity
      last_updated := now }

/-- `remove_stock`: raises on `qty ≤ 0`; otherwise removes
`min qty available` from available and returns the actual amount
removed. -/
def remove_stock (it : InventoryItem) (quantity : Int) (now : Nat) :
    Option (Int × InventoryItem) :=
  if quantity ≤ 0 then none
  else
    let actual_removal := min quantity it.available_quantity
    some (actual_removal,
      { it with
        available_quantity := it.available_quantity - actual_removal
        last_updated := now })

/-- `is_low_stock`: available + reserved ≤ threshold. -/
def is_low_stock (it : InventoryItem) (threshold : Int) : Bool :=
  it.total_quantity ≤ threshold

end InventoryItem

/-- Reservation record: `items` is the insertion-ordered dict from the
string key `"product_id_warehouse_id"` to the held quantity. -/
structure InventoryReservation where
  reservation_id : String
  customer_id : String
  items : List (String × Int)
  status : ReservationStatus := ReservationStatus.ACTIVE
  created_at : Nat := 0
  expires_at : Nat
  confirmed_at : Option Nat := none
  cancelled_at : Option Nat := none
deriving DecidableEq, Repr

namespace InventoryReservation

/-- Factory method `create`: fresh id supplied by the caller (uuid4 in
the source), expiry = now + expiry_minutes. -/
def create (reservation_id customer_id : String) (items : List (String × Int))
    (expiry_minutes : Nat) (now : Nat) : InventoryReservation :=
  { reservation_id := reservation_id
    customer_id := customer_id
    items := items
    status := ReservationStatus.ACTIVE
    created_at := now
    expires_at := now + expiry_minutes }

/-- `is_expired`: past the deadline while the stored status is ACTIVE. -/
def is_expired (r : InventoryReservation) (now : Nat) : Bool :=
  decide (now > r.expires_at) && decide (r.status = ReservationStatus.ACTIVE)

/-- `is_active`: stored status ACTIVE and not expired. -/
def is_active (r : InventoryReservation) (now : Nat) : Bool :=
  decide (r.status = ReservationStatus.ACTIVE) && ! r.is_expired now

/-- `confirm`: raises (`none`) unless active; marks CONFIRMED with
timestamp. -/
def confirm (r : InventoryReservation) (now : Nat) :
    Option InventoryReservation :=
  if r.is_active now then
    some { r with status := ReservationStatus.CONFIRMED, confirmed_at := some now }
  else none

/-- `cancel`: raises (`none`) when already CONFIRMED or CANCELLED; marks
CANCELLED with timestamp. -/
def cancel (r : InventoryReservation) (now : Nat) :
    Option InventoryReservation :=
  if r.status = ReservationStatus.CONFIRMED ∨ r.status = ReservationStatus.CANCELLED then
    none
  else
    some { r with status := ReservationStatus.CANCELLED, cancelled_at := some now }

end InventoryReservation

/-- Cart line item (`core/entities/cart.py`), projected to the fields the
inventory subsystem reads; the constructor rejects `quantity ≤ 0`. -/
structure CartItem where
  product_id : String
  quantity : Int
deriving DecidableEq, Repr

/-! ## Keys and the in-memory repository

`InMemoryInventoryRepository` stores inventory items in an
insertion-ordered dict keyed by the string `f"{product_id}_{warehouse_id}"`,
and reservations in a dict keyed by `reservation_id`.  Each dict is
modelled as the list of its values in insertion order; well-formedness
says the corresponding keys are pairwise distinct, which every dict
guarantees. -/

/-- The dict key of an inventory item: `f"{product_id}_{warehouse_id}"`. -/
def itemKey (it : InventoryItem) : String :=
  it.product_id ++ "_" ++ it.warehouse_id

/-- The key under which a `(product_id, warehouse_id)` pair is stored or
looked up. -/
def encodeKey (product_id warehouse_id : String) : String :=
  product_id ++ "_" ++ warehouse_id

/-- Helper for `key.split('_', 1)`: split a character list at its first
underscore; `none` when there is no underscore (in which case the
two-variable unpacking in the source raises `ValueError`). -/
def splitFirstAux : List Char → Option (List Char × List Char)
  | [] => none
  | c :: cs =>
    if c = '_' then some ([], cs)
    else
      match splitFirstAux cs with
      | none => none
      | some (a, b) => some (c :: a, b)

/-- `product_id, warehouse_id = item_key.split('_', 1)`. -/
def splitKey (s : String) : Option (String × String) :=
  match splitFirstAux s.toList with
  | none => none
  | some (a, b) => some (String.mk a, String.mk b)

/-- `find_inventory_item`: dict lookup by the encoded key. -/
def find_inventory_item (items : List InventoryItem)
    (product_id warehouse_id : String) : Option InventoryItem :=
  items.find? (fun it => itemKey it = encodeKey product_id warehouse_id)

/-- `find_inventory_by_product`: all stored items whose `product_id`
field matches, in insertion order. -/
def find_inventory_by_product (items : List InventoryItem)
    (product_id : String) : List InventoryItem :=
  items.filter (fun it => it.product_id = product_id)

/-- `save_inventory_item`: dict assignment at the item's key — replace in
place when the key is present, append otherwise. -/
def save_inventory_item (items : List InventoryItem) (it : InventoryItem) :
    List InventoryItem :=
  if items.any (fun x => itemKey x = itemKey it) then
    items.map (fun x => if itemKey x = itemKey it then it else x)
  else items ++ [it]

/-- `find_reservation`: dict lookup by reservation id. -/
def find_reservation (rs : List InventoryReservation) (reservation_id : String) :
    Option InventoryReservation :=
  rs.find? (fun r => r.reservation_id = reservation_id)

/-- `save_reservation`: dict assignment at the reservation id. -/
def save_reservation (rs : List InventoryReservation) (r : InventoryReservation) :
    List InventoryReservation :=
  if rs.any (fun x => x.reservation_id = r.reservation_id) then
    rs.map (fun x => if x.reservation_id = r.reservation_id then r else x)
  else rs ++ [r]

/-- `find_active_reservations`: stored status ACTIVE. -/
def find_active_reservations (rs : List InventoryReservation) :
    List InventoryReservation :=
  rs.filter (fun r => r.status = ReservationStatus.ACTIVE)

/-- Well-formedness of the item store: the dict invariant (pairwise
distinct keys) plus non-negative counters, which `__post_init__` checks
at construction and every entity operation preserves. -/
def WFItems (items : List InventoryItem) : Prop :=
  (items.map itemKey).Nodup ∧
  ∀ it ∈ items, 0 ≤ it.available_quantity ∧ 0 ≤ it.reserved_quantity

/-- Well-formedness of one reservation record as produced by
`reserve_items`: every held quantity is positive and every key contains
an underscore (it was built by `encodeKey`). -/
def WFReservation (r : InventoryReservation) : Prop :=
  ∀ kq ∈ r.items, 0 < kq.2 ∧ (splitKey kq.1).isSome

/-! ## Allocation planner (`_plan_inventory_allocation`) -/

/-- One insertion step of the stable sort by descending
`available_quantity` (Python `list.sort(key=..., reverse=True)` is a
stable sort; a stable sort is unique, realised here by insertion). -/
def insertByAvail (x : InventoryItem) : List InventoryItem → List InventoryItem
  | [] => [x]
  | y :: ys =>
    if x.available_quantity < y.available_quantity then y :: insertByAvail x ys
    else x :: y :: ys

/-- Stable sort by descending `available_quantity`, ties in input order. -/
def sortByAvailDesc : List InventoryItem → List InventoryItem
  | [] => []
  | x :: xs => insertByAvail x (sortByAvailDesc xs)

/-- The allocation plan: the insertion-ordered dict from
`(product_id, warehouse_id)` to allocated quantity. -/
abbrev Plan := List ((String × String) × Int)

/-- Dict assignment `allocation_plan[key] = value`. -/
def setPlan (plan : Plan) (k : String × String) (v : Int) : Plan :=
  if plan.any (fun e => e.1 = k) then
    plan.map (fun e => if e.1 = k then (k, v) else e)
  else plan ++ [(k, v)]

/-- The inner greedy loop over the sorted entries of one line item:
consume `min remaining available` from each entry while
`remaining > 0`, recording positive allocations in the plan. -/
def allocateGreedy (product_id : String) : Int → List InventoryItem → Plan → Int × Plan
  | remaining, [], plan => (remaining, plan)
  | remaining, e :: es, plan =>
    if remaining ≤ 0 then (remaining, plan)
    else
      let can_allocate := min remaining e.available_quantity
      if can_allocate > 0 then
        allocateGreedy product_id (remaining - can_allocate) es
          (setPlan plan (product_id, e.warehouse_id) can_allocate)
      else allocateGreedy product_id remaining es plan

/-- The outer loop over cart items; `none` as soon as one line item is
left with `remaining > 0`. -/
def planGo (items : List InventoryItem) : List CartItem → Plan → Option Plan
  | [], plan => some plan
  | c :: cs, plan =>
    let entries := sortByAvailDesc (find_inventory_by_product items c.product_id)
    let rp := allocateGreedy c.product_id c.quantity entries plan
    if rp.1 > 0 then none else planGo items cs rp.2

/-- `_plan_inventory_allocation`: pure planning over a snapshot of the
item store; `none` signals infeasibility. -/
def plan_inventory_allocation (cart_items : List CartItem)
    (items : List InventoryItem) : Option Plan :=
  planGo items cart_items []

/-! ## Inventory service (`inventory_service.py`) -/

/-- Error taxonomy of the service.  In the source, `NotFound`,
`InvalidState` and apply-time failures are all `ReservationException`
values distinguished only by message; the constructors here follow the
distinctions the messages make. -/
inductive SvcError where
  | insufficientInventory
  | reservationFailed
  | notFound
  | invalidState
  | confirmFailed
deriving DecidableEq, Repr

/-- The service-visible repository state: the two insertion-ordered
dicts (warehouses are not needed by the reservation operations). -/
structure ServiceState where
  items : List InventoryItem
  reservations : List InventoryReservation
deriving DecidableEq, Repr

/-- `default_reservation_expiry_minutes` configuration knob. -/
def default_reservation_expiry_minutes : Nat := 15

/-- Dict assignment `reserved_items[key] = quantity` on the record under
construction. -/
def setAssoc (l : List (String × Int)) (k : String) (v : Int) :
    List (String × Int) :=
  if l.any (fun e => e.1 = k) then
    l.map (fun e => if e.1 = k then (k, v) else e)
  else l ++ [(k, v)]

/-- The apply loop of `reserve_items`: walk the plan in order; look each
`(product, warehouse)` up in the live store and `reserve` the planned
quantity.  On failure (missing item, `reserve` returning false, or
`reserve` raising) return the rollback list accumulated so far together
with the store at the failure point; on success return the
`reserved_items` record and the final store. -/
def applyGo (now : Nat) :
    Plan → List InventoryItem → List (String × Int) → List (String × Int) →
    Except (List (String × Int) × List InventoryItem)
      (List (String × Int) × List InventoryItem)
  | [], items, recd, _roll => .ok (recd, items)
  | ((product_id, warehouse_id), quantity) :: rest, items, recd, roll =>
    match find_inventory_item items product_id warehouse_id with
    | none => .error (roll, items)
    | some it =>
      match it.reserve quantity now with
      | none => .error (roll, items)
      | some (false, _) => .error (roll, items)
      | some (true, it') =>
        applyGo now rest (save_inventory_item items it')
          (setAssoc recd (encodeKey product_id warehouse_id) quantity)
          (roll ++ [(encodeKey product_id warehouse_id, quantity)])

/-- `_rollback_reservations`: release, in acquisition order, every hold
acquired during the failed attempt; an individual failure is caught and
skipped. -/
def rollback_reservations (roll : List (String × Int))
    (items : List InventoryItem) (now : Nat) : List InventoryItem :=
  roll.foldl
    (fun its kq =>
      match its.find? (fun it => itemKey it = kq.1) with
      | none => its
      | some it =>
        match it.release_reservation kq.2 now with
        | none => its
        | some (_, it') => save_inventory_item its it')
    items

/-- `reserve_items`, with the planning snapshot decoupled from the live
store to model the documented check-then-act race window (§7): the plan
is computed over `snapshot`, the reserves are applied against
`st.items`.  The sequential call is `reserve_items` below, where both
coincide.  `reservation_id` stands for the generated uuid4. -/
def reserve_items_from (snapshot : List InventoryItem)
    (cart_items : List CartItem) (customer_id reservation_id : String)
    (st : ServiceState) (now : Nat) :
    Except SvcError String × ServiceState :=
  match plan_inventory_allocation cart_items snapshot with
  | none => (.error .insufficientInventory, st)
  | some plan =>
    -- `if not allocation_plan:` is Python falsiness: it raises for the
    -- empty dict (an empty cart) just as for None
    if plan = [] then (.error .insufficientInventory, st)
    else
      match applyGo now plan st.items [] [] with
      | .error rollItems =>
        (.error .reservationFailed,
          { st with items := rollback_reservations rollItems.1 rollItems.2 now })
      | .ok recdItems =>
        let reservation := InventoryReservation.create reservation_id customer_id
          recdItems.1 default_reservation_expiry_minutes now
        (.ok reservation_id,
          { items := recdItems.2
            reservations := save_reservation st.reservations reservation })

/-- `reserve_items`: plan and apply read the same store (the whole call
runs under the coarse service lock). -/
def reserve_items (cart_items : List CartItem)
    (customer_id reservation_id : String) (st : ServiceState) (now : Nat) :
    Except SvcError String × ServiceState :=
  reserve_items_from st.items cart_items customer_id reservation_id st now

/-- The confirm loop of `confirm_reservation`: for each held
`(key, quantity)`, split the key at its first underscore, look the entry
up, and `confirm_reservation` the quantity on it; a missing entry is
skipped.  An exception (unsplittable key, or `confirm_reservation`
raising) aborts the loop, keeping the partial mutations. -/
def confirmHolds (now : Nat) :
    List (String × Int) → List InventoryItem →
    Except (List InventoryItem) (List InventoryItem)
  | [], items => .ok items
  | (k, quantity) :: rest, items =>
    match splitKey k with
    | none => .error items
    | some pw =>
      match find_inventory_item items pw.1 pw.2 with
      | none => confirmHolds now rest items
      | some it =>
        match it.confirm_reservation quantity now with
        | none => .error items
        | some (_, it') => confirmHolds now rest (save_inventory_item items it')

/-- `confirm_reservation` (service): NotFound when the id is unknown,
InvalidState when the record is not active at `now` (re-derived from
expiry); otherwise confirm every held entry, mark the record CONFIRMED
and save it. -/
def InventoryService.confirm_reservation (reservation_id : String)
    (st : ServiceState) (now : Nat) : Except SvcError Unit × ServiceState :=
  match find_reservation st.reservations reservation_id with
  | none => (.error .notFound, st)
  | some r =>
    if r.is_active now then
      match confirmHolds now r.items st.items with
      | .error items' => (.error .confirmFailed, { st with items := items' })
      | .ok items' =>
        match r.confirm now with
        | none => (.error .confirmFailed, { st with items := items' })
        | some r' =>
          (.ok (), { items := items', reservations := save_reservation st.reservations r' })
    else (.error .invalidState, st)

/-- The release loop of `cancel_reservation`, exactly analogous to
`confirmHolds` with `release_reservation` in place of
`confirm_reservation`. -/
def releaseHolds (now : Nat) :
    List (String × Int) → List InventoryItem →
    Except (List InventoryItem) (List InventoryItem)
  | [], items => .ok items
  | (k, quantity) :: rest, items =>
    match splitKey k with
    | none => .error items
    | some pw =>
      match find_inventory_item items pw.1 pw.2 with
      | none => releaseHolds now rest items
      | some it =>
        match it.release_reservation quantity now with
        | none => .error items
        | some (_, it') => releaseHolds now rest (save_inventory_item items it')

/-- `cancel_reservation` (service): `false` when the id is unknown;
`true` with no mutation when the record is already CONFIRMED or
CANCELLED; otherwise release every held entry, mark the record CANCELLED
and save it (an exception on the way yields `false`, keeping partial
mutations). -/
def InventoryService.cancel_reservation (reservation_id : String)
    (st : ServiceState) (now : Nat) : Bool × ServiceState :=
  match find_reservation st.reservations reservation_id with
  | none => (false, st)
  | some r =>
    if r.status = ReservationStatus.CONFIRMED ∨ r.status = ReservationStatus.CANCELLED then
      (true, st)
    else
      match releaseHolds now r.items st.items with
      | .error items' => (false, { st with items := items' })
      | .ok items' =>
        match r.cancel now with
        | none => (false, { st with items := items' })
        | some r' =>
          (true, { items := items', reservations := save_reservation st.reservations r' })

/-- The sweep body over the snapshot of ACTIVE reservations: cancel each
expired one, counting it regardless of the cancellation's outcome (the
source increments after the call; `cancel_reservation` never raises). -/
def cleanupGo (now : Nat) :
    List InventoryReservation → ServiceState → Nat → Nat × ServiceState
  | [], st, count => (count, st)
  | r :: rest, st, count =>
    if r.is_expired now then
      let bst := InventoryService.cancel_reservation r.reservation_id st now
      cleanupGo now rest bst.2 (count + 1)
    else cleanupGo now rest st count

/-- `cleanup_expired_reservations`: iterate the reservations whose
stored status is ACTIVE; cancel those past their deadline; return the
count. -/
def cleanup_expired_reservations (st : ServiceState) (now : Nat) :
    Nat × ServiceState :=
  cleanupGo now (find_active_reservations st.reservations) st 0

/-! ## Derived measures used by the theorems -/

/-- Total available quantity of a product across all warehouses
(`get_available_quantity` with no warehouse argument). -/
def sumAvail (items : List InventoryItem) (product_id : String) : Int :=
  ((find_inventory_by_product items product_id).map
    (fun it => it.available_quantity)).sum

/-- Total quantity a plan allocates to one product. -/
def allocSum (plan : Plan) (product_id : String) : Int :=
  ((plan.filter (fun e => e.1.1 = product_id)).map (fun e => e.2)).sum

/-- Quantity a plan reserves on the ledger entry stored under `k`. -/
def reservedDelta (plan : Plan) (k : String) : Int :=
  ((plan.filter (fun e => encodeKey e.1.1 e.1.2 = k)).map (fun e => e.2)).sum

/-- An inventory item without its timestamp: the observation the
all-or-nothing claim is stated over. -/
def stripTs (it : InventoryItem) : String × String × Int × Int × Int × Int :=
  (it.product_id, it.warehouse_id, it.available_quantity,
    it.reserved_quantity, it.total_received, it.total_sold)

/-! ## Operation sequences on one ledger entry (for the invariant claim) -/

/-- One mutating operation on a single ledger entry, with its quantity
argument. -/
inductive LedgerOp where
  | reserveOp (q : Int)
  | releaseOp (q : Int)
  | confirmOp (q : Int)
  | addOp (q : Int)
  | removeOp (q : Int)
deriving DecidableEq, Repr

/-- The quantity argument of an operation. -/
def LedgerOp.qty : LedgerOp → Int
  | .reserveOp q => q
  | .releaseOp q => q
  | .confirmOp q => q
  | .addOp q => q
  | .removeOp q => q

/-- Apply one operation; a raised `ValueError` (`none`) leaves the entry
untouched, as the Python raise happens before any mutation. -/
def applyOp (it : InventoryItem) (op : LedgerOp) (now : Nat) : InventoryItem :=
  match op with
  | .reserveOp q => match it.reserve q now with
    | none => it
    | some bi => bi.2
  | .releaseOp q => match it.release_reservation q now with
    | none => it
    | some ai => ai.2
  | .confirmOp q => match it.confirm_reservation q now with
    | none => it
    | some ai => ai.2
  | .addOp q => match it.add_stock q now with
    | none => it
    | some it' => it'
  | .removeOp q => match it.remove_stock q now with
    | none => it
    | some ai => ai.2

/-- Run a sequence of timestamped operations left to right. -/
def runOps (it : InventoryItem) (ops : List (LedgerOp × Nat)) : InventoryItem :=
  ops.foldl (fun acc opn => applyOp acc opn.1 opn.2) it

/-- The state invariant of one ledger entry. -/
def ValidItem (it : InventoryItem) : Prop :=
  0 ≤ it.available_quantity ∧ 0 ≤ it.reserved_quantity

/-! ## C3: contract of `InventoryItem.reserve` -/

/-- C3: `reserve(qty)` rejects `qty ≤ 0` before any mutation; for
`qty > 0` it returns `true` and moves `qty` from available to reserved
(stamping `last_updated`) exactly when `available ≥ qty`, and returns
`false` leaving the entry unchanged when `available < qty`. -/
theorem reserve_contract (it : InventoryItem) (quantity : Int) (now : Nat) :
    (quantity ≤ 0 → it.reserve quantity now = none) ∧
    (0 < quantity →
      (quantity ≤ it.available_quantity →
        it.reserve quantity now = some (true,
          { it with
            available_quantity := it.available_quantity - quantity
            reserved_quantity := it.reserved_quantity + quantity
            last_updated := now })) ∧
      (it.available_quantity < quantity →
        it.reserve quantity now = some (false, it))) := by
  refine ⟨fun h => ?_, fun h => ⟨fun h2 => ?_, fun h2 => ?_⟩⟩
  · simp [InventoryItem.reserve, h]
  · rw [InventoryItem.reserve, if_neg (by omega), if_pos (by omega)]
  · rw [InventoryItem.reserve, if_neg (by omega), if_neg (by omega)]

/-- Witness for C3 at a concrete entry: 5 available, reserve 3. -/
theorem reserve_contract_witness :
    InventoryItem.reserve ⟨"P", "W1", 5, 0, 5, 0, 0⟩ 3 7 =
      some (true, ⟨"P", "W1", 2, 3, 5, 0, 7⟩) :=
  (((reserve_contract ⟨"P", "W1", 5, 0, 5, 0, 0⟩ 3 7).2 (by decide)).1
    (by decide)).trans (by decide)

/-! ## C7: reserve/release round trip -/

/-- C7: for `0 < q ≤ available` (and a well-formed `reserved ≥ 0`),
`reserve q` then `release_reservation q` restores available and reserved
to their pre-reserve values and the release returns exactly `q`; in
general `release_reservation` moves `min q reserved` back to available
and returns that amount. -/
theorem reserve_release_roundtrip (it : InventoryItem) (q : Int)
    (now now' : Nat) (hq : 0 < q) (hres : 0 ≤ it.reserved_quantity)
    (hav : q ≤ it.available_quantity) :
    (∃ it1, it.reserve q now = some (true, it1) ∧
      it1.release_reservation q now' = some (q,
        { it1 with
          available_quantity := it.available_quantity
          reserved_quantity := it.reserved_quantity
          last_updated := now' })) ∧
    it.release_reservation q now' = some (min q it.reserved_quantity,
      { it with
        reserved_quantity := it.reserved_quantity - min q it.reserved_quantity
        available_quantity := it.available_quantity + min q it.reserved_quantity
        last_updated := now' }) := by
  constructor
  · refine ⟨_, ((reserve_contract it q now).2 hq).1 hav, ?_⟩
    rw [InventoryItem.release_reservation, if_neg (by omega)]
    have hmin : min q (it.reserved_quantity + q) = q :=
      min_eq_left (by omega)
    rw [hmin]
    simp
  · rw [InventoryItem.release_reservation, if_neg (by omega)]

/-- Witness for C7: 5 available, 1 already reserved, round-trip 3. -/
theorem reserve_release_roundtrip_witness :
    (∃ it1, InventoryItem.reserve ⟨"P", "W1", 5, 1, 6, 0, 0⟩ 3 7 = some (true, it1) ∧
      it1.release_reservation 3 9 = some (3,
        { it1 with
          available_quantity := 5
          reserved_quantity := 1
          last_updated := 9 })) ∧
    InventoryItem.release_reservation ⟨"P", "W1", 5, 1, 6, 0, 0⟩ 3 9 =
      some (min 3 1,
        { (⟨"P", "W1", 5, 1, 6, 0, 0⟩ : InventoryItem) with
          reserved_quantity := 1 - min 3 1
          available_quantity := 5 + min 3 1
          last_updated := 9 }) :=
  reserve_release_roundtrip ⟨"P", "W1", 5, 1, 6, 0, 0⟩ 3 7 9
    (by decide) (by decide) (by decide)

/-! ## C4: non-negativity invariant over operation sequences -/

/-- One operation preserves the invariant. -/
theorem applyOp_valid (it : InventoryItem) (op : LedgerOp) (now : Nat)
    (h : ValidItem it) : ValidItem (applyOp it op now) := by
  obtain ⟨h1, h2⟩ := h
  cases op with
  | reserveOp q =>
    by_cases hq : q ≤ 0
    · simp only [applyOp, InventoryItem.reserve, if_pos hq]
      exact ⟨h1, h2⟩
    · by_cases hav : it.available_quantity ≥ q
      · simp only [applyOp, InventoryItem.reserve, if_neg hq, if_pos hav]
        refine ⟨?_, ?_⟩ <;> dsimp only <;> omega
      · simp only [applyOp, InventoryItem.reserve, if_neg hq, if_neg hav]
        exact ⟨h1, h2⟩
  | releaseOp q =>
    by_cases hq : q ≤ 0
    · simp only [applyOp, InventoryItem.release_reservation, if_pos hq]
      exact ⟨h1, h2⟩
    · have hm1 : min q it.reserved_quantity ≤ it.reserved_quantity := min_le_right _ _
      have hm0 : 0 ≤ min q it.reserved_quantity := le_min (by omega) h2
      simp only [applyOp, InventoryItem.release_reservation, if_neg hq]
      refine ⟨?_, ?_⟩ <;> dsimp only <;> omega
  | confirmOp q =>
    by_cases hq : q ≤ 0
    · simp only [applyOp, InventoryItem.confirm_reservation, if_pos hq]
      exact ⟨h1, h2⟩
    · have hm1 : min q it.reserved_quantity ≤ it.reserved_quantity := min_le_right _ _
      simp only [applyOp, InventoryItem.confirm_reservation, if_neg hq]
      refine ⟨?_, ?_⟩ <;> dsimp only <;> omega
  | addOp q =>
    by_cases hq : q ≤ 0
    · simp only [applyOp, InventoryItem.add_stock, if_pos hq]
      exact ⟨h1, h2⟩
    · simp only [applyOp, InventoryItem.add_stock, if_neg hq]
      refine ⟨?_, ?_⟩ <;> dsimp only <;> omega
  | removeOp q =>
    by_cases hq : q ≤ 0
    · simp only [applyOp, InventoryItem.remove_stock, if_pos hq]
      exact ⟨h1, h2⟩
    · have hm1 : min q it.available_quantity ≤ it.available_quantity := min_le_right _ _
      simp only [applyOp, InventoryItem.remove_stock, if_neg hq]
      refine ⟨?_, ?_⟩ <;> dsimp only <;> omega

/-- The invariant is preserved by every whole run. -/
theorem runOps_valid (ops : List (LedgerOp × Nat)) (it : InventoryItem)
    (h : ValidItem it) : ValidItem (runOps it ops) := by
  induction ops generalizing it with
  | nil => exact h
  | cons o rest ih => exact ih _ (applyOp_valid it o.1 o.2 h)

/-- C4: for every sequence of reserve / release / confirm / add / remove
operations with positive quantity arguments, starting from a valid entry
(available ≥ 0, reserved ≥ 0), the entry is valid after every operation
of the sequence (i.e. after every prefix of the run). -/
theorem ledger_invariant (it : InventoryItem) (ops : List (LedgerOp × Nat))
    (hv : ValidItem it) (hpos : ∀ o ∈ ops, 0 < o.1.qty) :
    ∀ pre suf, ops = pre ++ suf → ValidItem (runOps it pre) :=
  fun pre _ _ => runOps_valid pre it hv

/-- Witness for C4: a five-operation run on a 5-available entry, checked
after its three-operation prefix. -/
theorem ledger_invariant_witness :
    ValidItem (runOps ⟨"P", "W1", 5, 0, 5, 0, 0⟩
      [(.reserveOp 3, 1), (.confirmOp 2, 2), (.releaseOp 5, 3)]) :=
  ledger_invariant ⟨"P", "W1", 5, 0, 5, 0, 0⟩
    [(.reserveOp 3, 1), (.confirmOp 2, 2), (.releaseOp 5, 3),
      (.addOp 4, 4), (.removeOp 1, 5)]
    ⟨by decide, by decide⟩ (by decide)
    [(.reserveOp 3, 1), (.confirmOp 2, 2), (.releaseOp 5, 3)]
    [(.addOp 4, 4), (.removeOp 1, 5)] rfl

/-! ## C10: hold keys — encode/decode round trip -/

/-- Splitting at the first underscore undoes appending an underscore
after an underscore-free prefix. -/
theorem splitFirstAux_encode (p w : List Char) (hp : '_' ∉ p) :
    splitFirstAux (p ++ '_' :: w) = some (p, w) := by
  induction p with
  | nil => simp [splitFirstAux]
  | cons c cs ih =>
    have hc : ¬ c = '_' := fun h => hp (h ▸ List.mem_cons_self c cs)
    have ihh := ih (fun h => hp (List.mem_cons_of_mem c h))
    simp [splitFirstAux, hc, ihh]

/-- Character list of an encoded key. -/
theorem toList_encodeKey (p w : String) :
    (encodeKey p w).toList = p.toList ++ '_' :: w.toList := by
  cases p with
  | mk pd =>
    cases w with
    | mk wd => simp [encodeKey, String.toList, String.data_append]

/-- C10: for underscore-free product ids, decoding a hold key by
splitting at the first underscore recovers exactly the encoded
`(product_id, warehouse_id)` pair, and encoding is injective — so the
keys `confirm_reservation` / `cancel_reservation` decode address
precisely the reserved ledger entries. -/
theorem key_roundtrip (p w : String) (hp : '_' ∉ p.toList) :
    splitKey (encodeKey p w) = some (p, w) ∧
    ∀ p2 w2 : String, '_' ∉ p2.toList →
      encodeKey p w = encodeKey p2 w2 → p = p2 ∧ w = w2 := by
  have hrt : ∀ p' w' : String, '_' ∉ p'.toList →
      splitKey (encodeKey p' w') = some (p', w') := by
    intro p' w' hp'
    rw [splitKey, toList_encodeKey, splitFirstAux_encode _ _ hp']
    rfl
  refine ⟨hrt p w hp, fun p2 w2 hp2 heq => ?_⟩
  have h1 := hrt p w hp
  have h2 := hrt p2 w2 hp2
  rw [heq, h2] at h1
  exact ⟨(Prod.mk.injEq .. ▸ Option.some.injEq _ _ ▸ h1 : _ ∧ _).1.symm,
    (Prod.mk.injEq .. ▸ Option.some.injEq _ _ ▸ h1 : _ ∧ _).2.symm⟩

/-- Witness for C10 at a concrete key with an underscore inside the
warehouse id. -/
theorem key_roundtrip_witness :
    splitKey (encodeKey "prod9" "wh_1") = some ("prod9", "wh_1") :=
  (key_roundtrip "prod9" "wh_1" (by decide)).1

/-! ## Planner lemmas -/

/-- Sum of available quantities over a list of entries. -/
def availSum (es : List InventoryItem) : Int :=
  (es.map (fun it => it.available_quantity)).sum

/-- Inserting keeps the multiset of entries. -/
theorem insertByAvail_perm (x : InventoryItem) (l : List InventoryItem) :
    List.Perm (insertByAvail x l) (x :: l) := by
  induction l with
  | nil => exact List.Perm.refl _
  | cons y ys ih =>
    rw [insertByAvail]
    split
    · exact (ih.cons y).trans (List.Perm.swap x y ys)
    · exact List.Perm.refl _

/-- The descending sort is a permutation of its input. -/
theorem sortByAvailDesc_perm (l : List InventoryItem) :
    List.Perm (sortByAvailDesc l) l := by
  induction l with
  | nil => exact List.Perm.refl _
  | cons x xs ih => exact (insertByAvail_perm x (sortByAvailDesc xs)).trans (ih.cons x)

/-- `sumAvail` in terms of the per-product entry list. -/
theorem sumAvail_eq (items : List InventoryItem) (pid : String) :
    sumAvail items pid = availSum (find_inventory_by_product items pid) := rfl

/-- Greedy never drives the remaining quantity negative. -/
theorem greedy_rem_nonneg (p : String) (r : Int) (es : List InventoryItem)
    (plan : Plan) (h : 0 ≤ r) : 0 ≤ (allocateGreedy p r es plan).1 := by
  induction es generalizing r plan with
  | nil => exact h
  | cons e es ih =>
    rw [allocateGreedy]
    split
    · exact h
    · dsimp only
      split
      · exact ih _ _ (by omega)
      · exact ih _ _ h

/-- Entries with non-negative availability have a non-negative sum. -/
theorem availSum_nonneg (l : List InventoryItem)
    (h : ∀ x ∈ l, 0 ≤ x.available_quantity) : 0 ≤ availSum l := by
  induction l with
  | nil => simp [availSum]
  | cons a l ih =>
    have h1 := h a (List.mem_cons_self a l)
    have h2 := ih (fun x hx => h x (List.mem_cons_of_mem a hx))
    simp only [availSum, List.map_cons, List.sum_cons] at h2 ⊢
    omega

/-- The remaining quantity is exhausted iff the entries cover the
request (entries with non-negative availability). -/
theorem greedy_le_iff (p : String) (r : Int) (es : List InventoryItem)
    (plan : Plan) (hnn : ∀ e ∈ es, 0 ≤ e.available_quantity) :
    (allocateGreedy p r es plan).1 ≤ 0 ↔ r ≤ availSum es := by
  induction es generalizing r plan with
  | nil => simp [allocateGreedy, availSum]
  | cons e es ih =>
    have he : 0 ≤ e.available_quantity := hnn e (List.mem_cons_self e es)
    have hsum : 0 ≤ availSum es :=
      availSum_nonneg es (fun x hx => hnn x (List.mem_cons_of_mem e hx))
    have hcons : availSum (e :: es) = e.available_quantity + availSum es := by
      simp [availSum]
    rw [allocateGreedy]
    split
    · rw [hcons]; omega
    · dsimp only
      split
      · rw [ih _ _ (fun x hx => hnn x (List.mem_cons_of_mem e hx)), hcons]
        omega
      · rw [ih _ _ (fun x hx => hnn x (List.mem_cons_of_mem e hx)), hcons]
        omega

/-- Every entry of a dict assignment is an old entry or the assigned
pair. -/
theorem setPlan_mem (plan : Plan) (k : String × String) (v : Int) :
    ∀ kv ∈ setPlan plan k v, kv ∈ plan ∨ kv = (k, v) := by
  intro kv hkv
  rw [setPlan] at hkv
  split at hkv
  · obtain ⟨e, he, heq⟩ := List.mem_map.mp hkv
    by_cases hk : e.1 = k
    · right; simp only [if_pos hk] at heq; exact heq.symm
    · left; simp only [if_neg hk] at heq; exact heq ▸ he
  · rcases List.mem_append.mp hkv with h | h
    · exact Or.inl h
    · right
      simpa using h

/-- Assignment at a fresh key is an append. -/
theorem setPlan_fresh (plan : Plan) (k : String × String) (v : Int)
    (h : ∀ kv ∈ plan, kv.1 ≠ k) : setPlan plan k v = plan ++ [(k, v)] := by
  rw [setPlan, if_neg]
  simp only [List.any_eq_true, decide_eq_true_eq, not_exists, not_and]
  exact h

/-- Dict assignment preserves distinctness of keys. -/
theorem setPlan_keys_nodup (plan : Plan) (k : String × String) (v : Int)
    (h : (plan.map (fun e => e.1)).Nodup) :
    ((setPlan plan k v).map (fun e => e.1)).Nodup := by
  by_cases hany : plan.any (fun e => decide (e.1 = k))
  · rw [setPlan, if_pos hany, List.map_map]
    have heq : plan.map ((fun e : (String × String) × Int => e.1) ∘
        fun e => if e.1 = k then (k, v) else e) = plan.map (fun e => e.1) := by
      refine List.map_congr_left ?_
      intro e _
      by_cases hk : e.1 = k
      · simp [Function.comp, hk]
      · simp [Function.comp, hk]
    rw [heq]
    exact h
  · rw [setPlan, if_neg hany, List.map_append]
    refine List.Nodup.append h (by simp) ?_
    intro a ha hb
    simp only [List.map_cons, List.map_nil, List.mem_singleton] at hb
    subst hb
    obtain ⟨e, he, heq⟩ := List.mem_map.mp ha
    rw [List.any_eq_true] at hany
    exact hany ⟨e, he, by simp [heq]⟩

/-- Greedy over entries with pairwise-distinct warehouses, all fresh for
the plan, appends a segment of allocations for this product whose values
sum to the quantity consumed. -/
theorem greedy_split (p : String) (r : Int) (es : List InventoryItem)
    (plan : Plan)
    (hfresh : ∀ e ∈ es, ∀ kv ∈ plan, kv.1 ≠ (p, e.warehouse_id))
    (hw : (es.map (fun e => e.warehouse_id)).Nodup) :
    ∃ added : Plan, (allocateGreedy p r es plan).2 = plan ++ added ∧
      (∀ kv ∈ added, kv.1.1 = p) ∧
      (added.map (fun kv => kv.2)).sum = r - (allocateGreedy p r es plan).1 := by
  induction es generalizing r plan with
  | nil => exact ⟨[], by simp [allocateGreedy]⟩
  | cons e es ih =>
    rw [allocateGreedy]
    split
    · exact ⟨[], by simp⟩
    · dsimp only
      split
      · rename_i hr hcan
        have hfr : ∀ kv ∈ plan, kv.1 ≠ (p, e.warehouse_id) :=
          fun kv hkv => hfresh e (List.mem_cons_self e es) kv hkv
        have hset := setPlan_fresh plan (p, e.warehouse_id)
          (min r e.available_quantity) hfr
        have hwtail : (es.map (fun x => x.warehouse_id)).Nodup :=
          (List.nodup_cons.mp hw).2
        have hwhead : e.warehouse_id ∉ es.map (fun x => x.warehouse_id) :=
          (List.nodup_cons.mp hw).1
        have hfresh' : ∀ x ∈ es, ∀ kv ∈ setPlan plan (p, e.warehouse_id)
            (min r e.available_quantity), kv.1 ≠ (p, x.warehouse_id) := by
          intro x hx kv hkv
          rw [hset] at hkv
          rcases List.mem_append.mp hkv with hkv | hkv
          · exact hfresh x (List.mem_cons_of_mem e hx) kv hkv
          · simp only [List.mem_singleton] at hkv
            subst hkv
            intro hcontra
            have : e.warehouse_id = x.warehouse_id := congrArg Prod.snd hcontra
            exact hwhead (this ▸ List.mem_map.mpr ⟨x, hx, rfl⟩)
        obtain ⟨added, h1, h2, h3⟩ := ih (r - min r e.available_quantity)
          (setPlan plan (p, e.warehouse_id) (min r e.available_quantity))
          hfresh' hwtail
        refine ⟨((p, e.warehouse_id), min r e.available_quantity) :: added,
          ?_, ?_, ?_⟩
        · rw [h1, hset, List.append_assoc]
          rfl
        · intro kv hkv
          rcases List.mem_cons.mp hkv with hkv | hkv
          · subst hkv; rfl
          · exact h2 kv hkv
        · simp only [List.map_cons, List.sum_cons, h3]
          omega
      · rename_i hr hcan
        exact ih r plan
          (fun x hx => hfresh x (List.mem_cons_of_mem e hx))
          (List.nodup_cons.mp hw).2

/-- Under the dict invariant, the per-product entries of the store carry
pairwise distinct warehouse ids. -/
theorem byProduct_wh_nodup (items : List InventoryItem) (pid : String)
    (hk : (items.map itemKey).Nodup) :
    ((find_inventory_by_product items pid).map
      (fun it => it.warehouse_id)).Nodup := by
  have hsub : List.Sublist ((find_inventory_by_product items pid).map itemKey)
      (items.map itemKey) := (List.filter_sublist items).map itemKey
  have hnd : ((find_inventory_by_product items pid).map itemKey).Nodup :=
    List.Nodup.sublist hsub hk
  have heq : (find_inventory_by_product items pid).map itemKey =
      ((find_inventory_by_product items pid).map
        (fun it => it.warehouse_id)).map (fun w => pid ++ "_" ++ w) := by
    rw [List.map_map]
    refine List.map_congr_left ?_
    intro it hit
    have : it.product_id = pid := by
      have := List.mem_filter.mp hit
      simpa using this.2
    simp [itemKey, Function.comp, this]
  rw [heq] at hnd
  exact List.Nodup.of_map _ hnd

/-- Membership in the sorted per-product entries. -/
theorem mem_sorted_byProduct (items : List InventoryItem) (pid : String)
    (e : InventoryItem)
    (he : e ∈ sortByAvailDesc (find_inventory_by_product items pid)) :
    e ∈ items ∧ e.product_id = pid := by
  have hmem : e ∈ find_inventory_by_product items pid :=
    (sortByAvailDesc_perm _).mem_iff.mp he
  have h1 := List.mem_filter.mp hmem
  exact ⟨h1.1, by simpa using h1.2⟩

/-- Availability sum over the sorted per-product entries equals
`sumAvail`. -/
theorem availSum_sorted (items : List InventoryItem) (pid : String) :
    availSum (sortByAvailDesc (find_inventory_by_product items pid)) =
      sumAvail items pid := by
  rw [sumAvail_eq]
  exact List.Perm.sum_eq ((sortByAvailDesc_perm _).map _)

/-- The planner fails exactly when some line item requests more than the
product's total availability (planning reads each line against the same
snapshot). -/
theorem planGo_none_iff (items : List InventoryItem)
    (hnn : ∀ it ∈ items, 0 ≤ it.available_quantity) :
    ∀ (cart : List CartItem) (plan : Plan),
    (planGo items cart plan = none ↔
      ∃ c ∈ cart, sumAvail items c.product_id < c.quantity) := by
  intro cart
  induction cart with
  | nil => intro plan; simp [planGo]
  | cons c cs ih =>
    intro plan
    rw [planGo]
    have hnnE : ∀ e ∈ sortByAvailDesc (find_inventory_by_product items c.product_id),
        0 ≤ e.available_quantity :=
      fun e he => hnn e (mem_sorted_byProduct items c.product_id e he).1
    have hiff := greedy_le_iff c.product_id c.quantity
      (sortByAvailDesc (find_inventory_by_product items c.product_id)) plan hnnE
    rw [availSum_sorted] at hiff
    by_cases hrem : (allocateGreedy c.product_id c.quantity
        (sortByAvailDesc (find_inventory_by_product items c.product_id)) plan).1 > 0
    · rw [if_pos hrem]
      exact iff_of_true rfl ⟨c, List.mem_cons_self c cs, by omega⟩
    · rw [if_neg hrem, ih]
      constructor
      · rintro ⟨c', hc', hlt⟩
        exact ⟨c', List.mem_cons_of_mem c hc', hlt⟩
      · rintro ⟨c', hc', hlt⟩
        rcases List.mem_cons.mp hc' with h | h
        · subst h; omega
        · exact ⟨c', h, hlt⟩

/-- Soundness of one plan entry: it names a stored item of that product
and warehouse and allocates a positive quantity within its
availability. -/
def PlanEntrySound (items : List InventoryItem)
    (kv : (String × String) × Int) : Prop :=
  ∃ it ∈ items, it.product_id = kv.1.1 ∧ it.warehouse_id = kv.1.2 ∧
    0 < kv.2 ∧ kv.2 ≤ it.available_quantity

/-- Greedy only adds sound entries. -/
theorem greedy_sound (items : List InventoryItem) (p : String) (r : Int)
    (es : List InventoryItem) (plan : Plan)
    (hes : ∀ e ∈ es, e ∈ items ∧ e.product_id = p)
    (hplan : ∀ kv ∈ plan, PlanEntrySound items kv) :
    ∀ kv ∈ (allocateGreedy p r es plan).2, PlanEntrySound items kv := by
  induction es generalizing r plan with
  | nil => exact hplan
  | cons e es ih =>
    rw [allocateGreedy]
    split
    · exact hplan
    · dsimp only
      split
      · rename_i hr hcan
        refine ih (r - min r e.available_quantity) _
          (fun x hx => hes x (List.mem_cons_of_mem e hx)) ?_
        intro kv hkv
        rcases setPlan_mem _ _ _ kv hkv with h | h
        · exact hplan kv h
        · subst h
          exact ⟨e, (hes e (List.mem_cons_self e es)).1,
            (hes e (List.mem_cons_self e es)).2, rfl, hcan,
            min_le_right _ _⟩
      · exact ih r plan (fun x hx => hes x (List.mem_cons_of_mem e hx)) hplan

/-- Every entry of a successful plan is sound. -/
theorem planGo_sound (items : List InventoryItem) :
    ∀ (cart : List CartItem) (plan plan' : Plan),
    (∀ kv ∈ plan, PlanEntrySound items kv) →
    planGo items cart plan = some plan' →
    ∀ kv ∈ plan', PlanEntrySound items kv := by
  intro cart
  induction cart with
  | nil =>
    intro plan plan' hplan h
    rw [planGo] at h
    injection h with h'
    subst h'
    exact hplan
  | cons c cs ih =>
    intro plan plan' hplan h
    rw [planGo] at h
    split at h
    · exact absurd h (by simp)
    · refine ih _ plan' ?_ h
      exact greedy_sound items c.product_id c.quantity _ plan
        (fun e he => mem_sorted_byProduct items c.product_id e he) hplan

/-- Greedy preserves distinctness of plan keys. -/
theorem greedy_keys_nodup (p : String) (r : Int) (es : List InventoryItem)
    (plan : Plan) (h : (plan.map (fun e => e.1)).Nodup) :
    (((allocateGreedy p r es plan).2).map (fun e => e.1)).Nodup := by
  induction es generalizing r plan with
  | nil => exact h
  | cons e es ih =>
    rw [allocateGreedy]
    split
    · exact h
    · dsimp only
      split
      · exact ih _ _ (setPlan_keys_nodup _ _ _ h)
      · exact ih _ _ h

/-- A successful plan's keys are pairwise distinct (it is a dict). -/
theorem planGo_keys_nodup (items : List InventoryItem) :
    ∀ (cart : List CartItem) (plan plan' : Plan),
    (plan.map (fun e => e.1)).Nodup →
    planGo items cart plan = some plan' →
    (plan'.map (fun e => e.1)).Nodup := by
  intro cart
  induction cart with
  | nil =>
    intro plan plan' h hp
    rw [planGo] at hp
    injection hp with hp'
    subst hp'
    exact h
  | cons c cs ih =>
    intro plan plan' h hp
    rw [planGo] at hp
    split at hp
    · exact absurd hp (by simp)
    · exact ih _ plan' (greedy_keys_nodup _ _ _ _ h) hp

/-- A plan with no entry for a product allocates nothing to it. -/
theorem allocSum_of_not_mem (plan : Plan) (pid : String)
    (h : ∀ kv ∈ plan, kv.1.1 ≠ pid) : allocSum plan pid = 0 := by
  rw [allocSum, List.filter_eq_nil.mpr]
  · rfl
  · intro kv hkv
    simpa using h kv hkv

/-- `allocSum` distributes over plan concatenation. -/
theorem allocSum_append (p1 p2 : Plan) (pid : String) :
    allocSum (p1 ++ p2) pid = allocSum p1 pid + allocSum p2 pid := by
  rw [allocSum, allocSum, allocSum, List.filter_append, List.map_append,
    List.sum_append]

/-- A segment entirely for one product allocates its whole value sum to
it. -/
theorem allocSum_of_all (added : Plan) (pid : String)
    (h : ∀ kv ∈ added, kv.1.1 = pid) :
    allocSum added pid = (added.map (fun kv => kv.2)).sum := by
  rw [allocSum, List.filter_eq_self.mpr]
  intro kv hkv
  simpa using h kv hkv

/-- Per-line-item exactness of a successful plan, for carts with
pairwise distinct product ids. -/
theorem planGo_sum (items : List InventoryItem)
    (hnn : ∀ it ∈ items, 0 ≤ it.available_quantity)
    (hk : (items.map itemKey).Nodup) :
    ∀ (cart : List CartItem) (plan plan' : Plan),
    (∀ c ∈ cart, 0 < c.quantity) →
    (cart.map (fun c => c.product_id)).Nodup →
    (∀ kv ∈ plan, ∀ c ∈ cart, kv.1.1 ≠ c.product_id) →
    planGo items cart plan = some plan' →
    (∀ c ∈ cart, allocSum plan' c.product_id = c.quantity) ∧
    (∀ pid, (∀ c ∈ cart, c.product_id ≠ pid) →
      allocSum plan' pid = allocSum plan pid) := by
  intro cart
  induction cart with
  | nil =>
    intro plan plan' _ _ _ h
    rw [planGo] at h
    injection h with h'
    subst h'
    exact ⟨by simp, fun pid _ => rfl⟩
  | cons c cs ih =>
    intro plan plan' hq hnd hfresh h
    rw [planGo] at h
    split at h
    · exact absurd h (by simp)
    · rename_i hrem
      have hwnd : ((sortByAvailDesc (find_inventory_by_product items
          c.product_id)).map (fun e => e.warehouse_id)).Nodup :=
        (List.Perm.nodup_iff ((sortByAvailDesc_perm _).map _)).mpr
          (byProduct_wh_nodup items c.product_id hk)
      have hfr : ∀ e ∈ sortByAvailDesc (find_inventory_by_product items
          c.product_id), ∀ kv ∈ plan, kv.1 ≠ (c.product_id, e.warehouse_id) := by
        intro e _ kv hkv hcontra
        exact hfresh kv hkv c (List.mem_cons_self c cs)
          (by rw [hcontra])
      obtain ⟨added, h1, h2, h3⟩ := greedy_split c.product_id c.quantity
        (sortByAvailDesc (find_inventory_by_product items c.product_id))
        plan hfr hwnd
      have hfr0 : 0 ≤ (allocateGreedy c.product_id c.quantity
          (sortByAvailDesc (find_inventory_by_product items c.product_id))
          plan).1 :=
        greedy_rem_nonneg _ _ _ _ (le_of_lt (hq c (List.mem_cons_self c cs)))
      have hsum : (added.map (fun kv => kv.2)).sum = c.quantity := by omega
      have hndcs : (cs.map (fun x => x.product_id)).Nodup :=
        (List.nodup_cons.mp hnd).2
      have hhead : c.product_id ∉ cs.map (fun x => x.product_id) :=
        (List.nodup_cons.mp hnd).1
      have hfresh' : ∀ kv ∈ plan ++ added, ∀ c' ∈ cs, kv.1.1 ≠ c'.product_id := by
        intro kv hkv c' hc'
        rcases List.mem_append.mp hkv with hkv | hkv
        · exact hfresh kv hkv c' (List.mem_cons_of_mem c hc')
        · rw [h2 kv hkv]
          intro hcontra
          exact hhead (hcontra ▸ List.mem_map.mpr ⟨c', hc', rfl⟩)
      rw [h1] at h
      obtain ⟨ih1, ih2⟩ := ih (plan ++ added) plan'
        (fun x hx => hq x (List.mem_cons_of_mem c hx)) hndcs hfresh' h
      constructor
      · intro c' hc'
        rcases List.mem_cons.mp hc' with hcc | hcc
        · subst hcc
          have hno : ∀ c'' ∈ cs, c''.product_id ≠ c'.product_id := by
            intro c'' hc'' hcontra
            exact hhead (hcontra ▸ List.mem_map.mpr ⟨c'', hc'', rfl⟩)
          rw [ih2 c'.product_id hno, allocSum_append,
            allocSum_of_not_mem plan c'.product_id
              (fun kv hkv => hfresh kv hkv c' (List.mem_cons_self c' cs)),
            allocSum_of_all added c'.product_id h2, hsum]
          ring
        · exact ih1 c' hcc
      · intro pid hpid
        rw [ih2 pid (fun c'' hc'' => hpid c'' (List.mem_cons_of_mem c hc'')),
          allocSum_append,
          allocSum_of_not_mem added pid
            (fun kv hkv => (h2 kv hkv) ▸ hpid c (List.mem_cons_self c cs))]
        ring

/-! ## Store lookup / save lemmas -/

/-- Lookup by raw dict key. -/
def lookupKey (items : List InventoryItem) (k : String) : Option InventoryItem :=
  items.find? (fun it => itemKey it = k)

/-- `find_inventory_item` is lookup at the encoded key. -/
theorem find_inventory_item_eq (items : List InventoryItem) (p w : String) :
    find_inventory_item items p w = lookupKey items (encodeKey p w) := rfl

/-- A successful lookup returns a member carrying the key. -/
theorem lookupKey_mem (items : List InventoryItem) (k : String)
    (it : InventoryItem) (h : lookupKey items k = some it) :
    it ∈ items ∧ itemKey it = k := by
  refine ⟨List.mem_of_find?_eq_some h, ?_⟩
  have := List.find?_some h
  simpa using this

/-- Replacing the entries under one key does not change what any other
key finds. -/
theorem find?_replace (xs : List InventoryItem) (it' : InventoryItem)
    (k : String) (hk : k ≠ itemKey it') :
    (xs.map (fun x => if itemKey x = itemKey it' then it' else x)).find?
      (fun it => itemKey it = k) = xs.find? (fun it => itemKey it = k) := by
  induction xs with
  | nil => rfl
  | cons x xs ih =>
    by_cases hm : itemKey x = itemKey it'
    · rw [List.map_cons, if_pos hm,
        List.find?_cons_of_neg _ (by simp [hk.symm]),
        List.find?_cons_of_neg _ (by simp [hm, hk.symm])]
      exact ih
    · rw [List.map_cons, if_neg hm]
      by_cases hx : itemKey x = k
      · rw [List.find?_cons_of_pos _ (by simp [hx]),
          List.find?_cons_of_pos _ (by simp [hx])]
      · rw [List.find?_cons_of_neg _ (by simp [hx]),
          List.find?_cons_of_neg _ (by simp [hx])]
        exact ih

/-- Appending an entry under a different key does not change a lookup. -/
theorem find?_append_single (items : List InventoryItem)
    (it' : InventoryItem) (k : String) (hk : k ≠ itemKey it') :
    lookupKey (items ++ [it']) k = lookupKey items k := by
  induction items with
  | nil =>
    rw [lookupKey, lookupKey, List.nil_append,
      List.find?_cons_of_neg _ (by simp [hk.symm])]
  | cons x xs ih =>
    by_cases hx : itemKey x = k
    · rw [lookupKey, lookupKey, List.cons_append,
        List.find?_cons_of_pos _ (by simp [hx]),
        List.find?_cons_of_pos _ (by simp [hx])]
    · rw [lookupKey, lookupKey, List.cons_append,
        List.find?_cons_of_neg _ (by simp [hx]),
        List.find?_cons_of_neg _ (by simp [hx])]
      exact ih

/-- Saving affects no other key's lookup. -/
theorem save_lookup_other (items : List InventoryItem) (it' : InventoryItem)
    (k : String) (hk : k ≠ itemKey it') :
    lookupKey (save_inventory_item items it') k = lookupKey items k := by
  rw [save_inventory_item]
  split
  · exact find?_replace items it' k hk
  · exact find?_append_single items it' k hk

/-- Replacement under a present key makes that key find the new entry. -/
theorem find?_replace_self (xs : List InventoryItem) (it' : InventoryItem)
    (h : ∃ x ∈ xs, itemKey x = itemKey it') :
    lookupKey (xs.map (fun x => if itemKey x = itemKey it' then it' else x))
      (itemKey it') = some it' := by
  induction xs with
  | nil => exact absurd h (by simp)
  | cons x xs ih =>
    by_cases hm : itemKey x = itemKey it'
    · rw [List.map_cons, if_pos hm, lookupKey,
        List.find?_cons_of_pos _ (by simp)]
    · rw [List.map_cons, if_neg hm, lookupKey,
        List.find?_cons_of_neg _ (by simp [hm])]
      refine ih ?_
      obtain ⟨y, hy, hyk⟩ := h
      rcases List.mem_cons.mp hy with h1 | h1
      · exact absurd (h1 ▸ hyk) hm
      · exact ⟨y, h1, hyk⟩

/-- Saving makes the saved entry what its key finds. -/
theorem save_lookup_self (items : List InventoryItem) (it' : InventoryItem) :
    lookupKey (save_inventory_item items it') (itemKey it') = some it' := by
  rw [save_inventory_item]
  split
  · rename_i hany
    rw [List.any_eq_true] at hany
    refine find?_replace_self items it' ?_
    obtain ⟨x, hx, hxk⟩ := hany
    exact ⟨x, hx, by simpa using hxk⟩
  · rename_i hany
    rw [lookupKey]
    induction items with
    | nil => rw [List.nil_append, List.find?_cons_of_pos _ (by simp)]
    | cons x xs ih =>
      have hx : ¬ itemKey x = itemKey it' := by
        intro hcontra
        exact hany (by simp [List.any_cons, hcontra])
      rw [List.cons_append, List.find?_cons_of_neg _ (by simp [hx])]
      exact ih (fun hxs => hany (by simp [List.any_cons, hxs]))

/-- Saving under an existing key keeps the key sequence of the dict. -/
theorem save_keys_of_present (items : List InventoryItem)
    (it' : InventoryItem) (h : ∃ x ∈ items, itemKey x = itemKey it') :
    (save_inventory_item items it').map itemKey = items.map itemKey := by
  rw [save_inventory_item, if_pos]
  · rw [List.map_map]
    refine List.map_congr_left ?_
    intro x _
    by_cases hk : itemKey x = itemKey it'
    · simp [Function.comp, hk]
    · simp [Function.comp, hk]
  · rw [List.any_eq_true]
    obtain ⟨x, hx, hxk⟩ := h
    exact ⟨x, hx, by simpa using hxk⟩

/-! ## Apply-phase lemmas for `reserve_items` -/

/-- The entry produced by a successful `reserve`. -/
def reservedItem (it : InventoryItem) (q : Int) (now : Nat) : InventoryItem :=
  { it with
    available_quantity := it.available_quantity - q
    reserved_quantity := it.reserved_quantity + q
    last_updated := now }

/-- `reserve` succeeds exactly by producing `reservedItem`. -/
theorem reserve_eq_some_true (it : InventoryItem) (q : Int) (now : Nat)
    (it₂ : InventoryItem) (h : it.reserve q now = some (true, it₂)) :
    0 < q ∧ q ≤ it.available_quantity ∧ it₂ = reservedItem it q now := by
  rw [InventoryItem.reserve] at h
  split at h
  · exact absurd h (by simp)
  · split at h
    · rename_i h1 h2
      refine ⟨by omega, by omega, ?_⟩
      have := (Option.some.injEq _ _).mp h
      exact ((Prod.mk.injEq _ _ _ _).mp this).2.symm
  
    · exact absurd ((Prod.mk.injEq _ _ _ _).mp ((Option.some.injEq _ _).mp h)).1
        (by simp)

/-- Record-dict assignment at a fresh key appends. -/
theorem setAssoc_fresh (l : List (String × Int)) (k : String) (v : Int)
    (h : ∀ kq ∈ l, kq.1 ≠ k) : setAssoc l k v = l ++ [(k, v)] := by
  rw [setAssoc, if_neg]
  simp only [List.any_eq_true, decide_eq_true_eq, not_exists, not_and]
  exact h

/-- The key of a reserved entry is the key of the original. -/
theorem itemKey_reservedItem (it : InventoryItem) (q : Int) (now : Nat) :
    itemKey (reservedItem it q now) = itemKey it := rfl

/-- Distinct plan pairs have distinct encoded keys once every entry is
sound for a store with the dict invariant. -/
theorem plan_string_keys_nodup (items : List InventoryItem) (plan : Plan)
    (hk : (items.map itemKey).Nodup)
    (hsound : ∀ kv ∈ plan, PlanEntrySound items kv)
    (hnd : (plan.map (fun e => e.1)).Nodup) :
    (plan.map (fun e => encodeKey e.1.1 e.1.2)).Nodup := by
  have hmm : plan.map (fun e => encodeKey e.1.1 e.1.2) =
      (plan.map (fun e => e.1)).map (fun k => encodeKey k.1 k.2) := by
    rw [List.map_map]
    rfl
  rw [hmm]
  refine List.Nodup.map_on ?_ hnd
  intro k1 hk1 k2 hk2 heq
  obtain ⟨e1, he1, he1k⟩ := List.mem_map.mp hk1
  obtain ⟨e2, he2, he2k⟩ := List.mem_map.mp hk2
  obtain ⟨it1, hit1, hp1, hw1, _⟩ := hsound e1 he1
  obtain ⟨it2, hit2, hp2, hw2, _⟩ := hsound e2 he2
  have hkey1 : itemKey it1 = encodeKey k1.1 k1.2 := by
    rw [itemKey, hp1, hw1, he1k]
    rfl
  have hkey2 : itemKey it2 = encodeKey k2.1 k2.2 := by
    rw [itemKey, hp2, hw2, he2k]
    rfl
  have hsame : it1 = it2 :=
    List.inj_on_of_nodup_map hk hit1 hit2 (by rw [hkey1, hkey2, heq])
  have h1 : k1.1 = k2.1 := by
    rw [← he1k, ← he2k, ← hp1, ← hp2, hsame]
  have h2 : k1.2 = k2.2 := by
    rw [← he1k, ← he2k, ← hw1, ← hw2, hsame]
  exact Prod.ext h1 h2

/-- Success of the apply loop: the record dict extends by the stringified
plan in order, every planned entry was found with enough availability and
ends reserved by its planned quantity, and no other key's entry
changes. -/
theorem applyGo_ok_spec (now : Nat) :
    ∀ (plan : Plan) (items : List InventoryItem)
      (recd roll recd' : List (String × Int)) (items' : List InventoryItem),
    (plan.map (fun e => encodeKey e.1.1 e.1.2)).Nodup →
    (∀ e ∈ plan, ∀ kq ∈ recd, kq.1 ≠ encodeKey e.1.1 e.1.2) →
    applyGo now plan items recd roll = .ok (recd', items') →
    recd' = recd ++ plan.map (fun e => (encodeKey e.1.1 e.1.2, e.2)) ∧
    (∀ k, (∀ e ∈ plan, encodeKey e.1.1 e.1.2 ≠ k) →
      lookupKey items' k = lookupKey items k) ∧
    (∀ e ∈ plan, 0 < e.2 ∧ ∃ it,
      lookupKey items (encodeKey e.1.1 e.1.2) = some it ∧
      e.2 ≤ it.available_quantity ∧
      lookupKey items' (encodeKey e.1.1 e.1.2) =
        some (reservedItem it e.2 now)) := by
  intro plan
  induction plan with
  | nil =>
    intro items recd roll recd' items' _ _ h
    rw [applyGo] at h
    injection h with h'
    injection h' with h1 h2
    subst h1
    subst h2
    exact ⟨by simp, fun k _ => rfl, by simp⟩
  | cons e rest ih =>
    intro items recd roll recd' items' hnd hdisj h
    obtain ⟨⟨p, w⟩, q⟩ := e
    rw [applyGo] at h
    cases hfind : find_inventory_item items p w with
    | none =>
      simp only [hfind] at h
      exact absurd h (by simp)
    | some it =>
      simp only [hfind] at h
      cases hres : it.reserve q now with
      | none =>
        simp only [hres] at h
        exact absurd h (by simp)
      | some bi =>
        obtain ⟨b, it₂⟩ := bi
        cases b with
        | false =>
          simp only [hres] at h
          exact absurd h (by simp)
        | true =>
          simp only [hres] at h
          obtain ⟨hq, hav, hit₂⟩ := reserve_eq_some_true it q now it₂ hres
          subst hit₂
          have hkey : itemKey it = encodeKey p w :=
            (lookupKey_mem items _ it
              (find_inventory_item_eq items p w ▸ hfind)).2
          have hndc := List.nodup_cons.mp
            (show (encodeKey p w ::
              rest.map (fun e => encodeKey e.1.1 e.1.2)).Nodup from hnd)
          have hKnotrest : ∀ e' ∈ rest, encodeKey e'.1.1 e'.1.2 ≠ encodeKey p w := by
            intro e' he' hcontra
            exact hndc.1 (hcontra ▸ List.mem_map.mpr ⟨e', he', rfl⟩)
          have hset : setAssoc recd (encodeKey p w) q = recd ++ [(encodeKey p w, q)] :=
            setAssoc_fresh recd _ q
              (fun kq hkq => hdisj ((p, w), q) (List.mem_cons_self _ _) kq hkq)
          rw [hset] at h
          have hdisj' : ∀ e' ∈ rest, ∀ kq ∈ recd ++ [(encodeKey p w, q)],
              kq.1 ≠ encodeKey e'.1.1 e'.1.2 := by
            intro e' he' kq hkq
            rcases List.mem_append.mp hkq with hkq | hkq
            · exact hdisj e' (List.mem_cons_of_mem _ he') kq hkq
            · simp only [List.mem_singleton] at hkq
              subst hkq
              exact fun hcontra => hKnotrest e' he' hcontra.symm
          obtain ⟨ih1, ih2, ih3⟩ := ih (save_inventory_item items
              (reservedItem it q now)) (recd ++ [(encodeKey p w, q)])
            (roll ++ [(encodeKey p w, q)]) recd' items'
            hndc.2 hdisj' h
          refine ⟨?_, ?_, ?_⟩
          · rw [ih1, List.append_assoc]
            rfl
          · intro k hk
            have hkK : encodeKey p w ≠ k := hk ((p, w), q) (List.mem_cons_self _ _)
            rw [ih2 k (fun e' he' => hk e' (List.mem_cons_of_mem _ he')),
              save_lookup_other items _ k]
            rw [itemKey_reservedItem, hkey]
            exact hkK.symm
          · intro e' he'
            rcases List.mem_cons.mp he' with he' | he'
            · subst he'
              refine ⟨hq, it, find_inventory_item_eq items p w ▸ hfind, hav, ?_⟩
              rw [ih2 (encodeKey p w) hKnotrest]
              have := save_lookup_self items (reservedItem it q now)
              rw [itemKey_reservedItem, hkey] at this
              exact this
            · obtain ⟨hq', it₀, hlk, hav', hlk'⟩ := ih3 e' he'
              refine ⟨hq', it₀, ?_, hav', hlk'⟩
              rw [← hlk, save_lookup_other items _ _]
              rw [itemKey_reservedItem, hkey]
              exact fun hcontra => hKnotrest e' he' hcontra

/-- Failure of the apply loop: the rollback list extends the incoming one
by the holds acquired in this attempt, each a planned key whose entry now
carries the extra reserve, and no other key's entry changed. -/
theorem applyGo_err_spec (now : Nat) :
    ∀ (plan : Plan) (items : List InventoryItem)
      (recd roll roll' : List (String × Int)) (items₀ : List InventoryItem),
    (plan.map (fun e => encodeKey e.1.1 e.1.2)).Nodup →
    applyGo now plan items recd roll = .error (roll', items₀) →
    ∃ pre : List (String × Int), roll' = roll ++ pre ∧
      (pre.map (fun kq => kq.1)).Nodup ∧
      (∀ kq ∈ pre, kq.1 ∈ plan.map (fun e => encodeKey e.1.1 e.1.2)) ∧
      (∀ kq ∈ pre, 0 < kq.2 ∧ ∃ it,
        lookupKey items kq.1 = some it ∧
        lookupKey items₀ kq.1 = some (reservedItem it kq.2 now)) ∧
      (∀ k, (∀ kq ∈ pre, kq.1 ≠ k) →
        lookupKey items₀ k = lookupKey items k) := by
  intro plan
  induction plan with
  | nil =>
    intro items recd roll roll' items₀ _ h
    rw [applyGo] at h
    exact absurd h (by simp)
  | cons e rest ih =>
    intro items recd roll roll' items₀ hnd h
    obtain ⟨⟨p, w⟩, q⟩ := e
    rw [applyGo] at h
    cases hfind : find_inventory_item items p w with
    | none =>
      simp only [hfind] at h
      injection h with h'
      injection h' with h1 h2
      subst h1
      subst h2
      exact ⟨[], by simp, by simp, by simp, by simp, fun k _ => rfl⟩
    | some it =>
      simp only [hfind] at h
      cases hres : it.reserve q now with
      | none =>
        simp only [hres] at h
        injection h with h'
        injection h' with h1 h2
        subst h1
        subst h2
        exact ⟨[], by simp, by simp, by simp, by simp, fun k _ => rfl⟩
      | some bi =>
        obtain ⟨b, it₂⟩ := bi
        cases b with
        | false =>
          simp only [hres] at h
          injection h with h'
          injection h' with h1 h2
          subst h1
          subst h2
          exact ⟨[], by simp, by simp, by simp, by simp, fun k _ => rfl⟩
        | true =>
          simp only [hres] at h
          obtain ⟨hq, hav, hit₂⟩ := reserve_eq_some_true it q now it₂ hres
          subst hit₂
          have hkey : itemKey it = encodeKey p w :=
            (lookupKey_mem items _ it
              (find_inventory_item_eq items p w ▸ hfind)).2
          have hndc := List.nodup_cons.mp
            (show (encodeKey p w ::
              rest.map (fun e => encodeKey e.1.1 e.1.2)).Nodup from hnd)
          obtain ⟨pre', hpre1, hpre2, hpre5, hpre3, hpre4⟩ := ih
            (save_inventory_item items (reservedItem it q now))
            (setAssoc recd (encodeKey p w) q)
            (roll ++ [(encodeKey p w, q)]) roll' items₀ hndc.2 h
          have hpreK : ∀ kq ∈ pre', kq.1 ≠ encodeKey p w := by
            intro kq hkq hcontra
            exact hndc.1 (hcontra ▸ hpre5 kq hkq)
          refine ⟨(encodeKey p w, q) :: pre', ?_, ?_, ?_, ?_, ?_⟩
          · rw [hpre1, List.append_assoc]
            rfl
          · rw [List.map_cons]
            exact List.nodup_cons.mpr
              ⟨fun hmem => by
                obtain ⟨kq, hkq, hkqe⟩ := List.mem_map.mp hmem
                exact hpreK kq hkq hkqe, hpre2⟩
          · intro kq hkq
            rcases List.mem_cons.mp hkq with hkq | hkq
            · subst hkq
              exact List.mem_map.mpr ⟨((p, w), q), List.mem_cons_self _ _, rfl⟩
            · exact List.mem_cons_of_mem _ (hpre5 kq hkq)
          · intro kq hkq
            rcases List.mem_cons.mp hkq with hkq | hkq
            · subst hkq
              refine ⟨hq, it, find_inventory_item_eq items p w ▸ hfind, ?_⟩
              rw [hpre4 _ hpreK]
              have := save_lookup_self items (reservedItem it q now)
              rw [itemKey_reservedItem, hkey] at this
              exact this
            · obtain ⟨hq', it₀, hl, hl'⟩ := hpre3 kq hkq
              refine ⟨hq', it₀, ?_, hl'⟩
              rw [← hl, save_lookup_other items _ _]
              rw [itemKey_reservedItem, hkey]
              exact hpreK kq hkq
          · intro k hk
            have hkK : encodeKey p w ≠ k :=
              hk (encodeKey p w, q) (List.mem_cons_self _ _)
            rw [hpre4 k (fun kq hkq => hk kq (List.mem_cons_of_mem _ hkq)),
              save_lookup_other items _ k]
            rw [itemKey_reservedItem, hkey]
            exact hkK.symm

/-- Unfolding one step of the rollback fold. -/
theorem rollback_cons (kq : String × Int) (rl : List (String × Int))
    (cur : List InventoryItem) (now' : Nat) :
    rollback_reservations (kq :: rl) cur now' =
      rollback_reservations rl
        (match cur.find? (fun it => itemKey it = kq.1) with
          | none => cur
          | some it =>
            match it.release_reservation kq.2 now' with
            | none => cur
            | some (_, it2) => save_inventory_item cur it2) now' := by
  rw [rollback_reservations, rollback_reservations, List.foldl_cons]

/-- Releasing a freshly reserved entry restores its observable fields. -/
theorem stripTs_release_reserved (it : InventoryItem) (q : Int) (now now' : Nat)
    (hq : 0 < q) (hres : 0 ≤ it.reserved_quantity) :
    ∃ itR, (reservedItem it q now).release_reservation q now' = some (q, itR) ∧
      stripTs itR = stripTs it ∧ itemKey itR = itemKey it := by
  have hmin : min q (reservedItem it q now).reserved_quantity = q := by
    rw [reservedItem]
    exact min_eq_left (by dsimp only; omega)
  refine ⟨{ it with
      available_quantity := it.available_quantity - q + q
      reserved_quantity := it.reserved_quantity + q - q
      last_updated := now' }, ?_, ?_, rfl⟩
  · rw [InventoryItem.release_reservation, if_neg (by omega), hmin]
    dsimp only [reservedItem]
  · rw [stripTs, stripTs]
    dsimp only
    simp only [Prod.mk.injEq, true_and, and_true]
    constructor <;> omega

/-- Rolling back every hold of a failed attempt restores every entry's
observable fields to those of the pre-attempt store. -/
theorem rollback_restores (now' : Nat) :
    ∀ (rl : List (String × Int)) (cur base : List InventoryItem) (now : Nat),
    (rl.map (fun kq => kq.1)).Nodup →
    (∀ kq ∈ rl, 0 < kq.2 ∧ ∃ it, lookupKey base kq.1 = some it ∧
      0 ≤ it.reserved_quantity ∧
      lookupKey cur kq.1 = some (reservedItem it kq.2 now)) →
    (∀ k, (∀ kq ∈ rl, kq.1 ≠ k) →
      Option.map stripTs (lookupKey cur k) = Option.map stripTs (lookupKey base k)) →
    ∀ k, Option.map stripTs (lookupKey (rollback_reservations rl cur now') k) =
      Option.map stripTs (lookupKey base k) := by
  intro rl
  induction rl with
  | nil =>
    intro cur base now _ _ hagree k
    rw [rollback_reservations, List.foldl_nil]
    exact hagree k (by simp)
  | cons kq rl' ih =>
    intro cur base now hnd hrel hagree k
    obtain ⟨hq, it, hbase, hresnn, hcur⟩ := hrel kq (List.mem_cons_self kq rl')
    obtain ⟨itR, hrelease, hstrip, hkeyR⟩ :=
      stripTs_release_reserved it kq.2 now now' hq hresnn
    have hcur' : cur.find? (fun x => itemKey x = kq.1) = some (reservedItem it kq.2 now) :=
      hcur
    have hkeyRes : itemKey (reservedItem it kq.2 now) = kq.1 :=
      (lookupKey_mem cur kq.1 _ hcur).2
    rw [rollback_cons]
    simp only [hcur', hrelease]
    have hndc := List.nodup_cons.mp (show (kq.1 :: rl'.map (fun x => x.1)).Nodup from hnd)
    have hkR : itemKey itR = kq.1 := by
      rw [hkeyR]
      exact hkeyRes
    refine ih (save_inventory_item cur itR) base now hndc.2 ?_ ?_ k
    · intro kq' hkq'
      obtain ⟨hq', it', hbase', hres', hcur''⟩ := hrel kq' (List.mem_cons_of_mem kq hkq')
      have hne : kq'.1 ≠ kq.1 := by
        intro hcontra
        exact hndc.1 (hcontra ▸ List.mem_map.mpr ⟨kq', hkq', rfl⟩)
      refine ⟨hq', it', hbase', hres', ?_⟩
      rw [save_lookup_other cur itR kq'.1 (hkR ▸ hne), hcur'']
    · intro k' hk'
      by_cases hk0 : k' = kq.1
      · subst hk0
        have := save_lookup_self cur itR
        rw [hkR] at this
        rw [this, hbase]
        simp [hstrip]
      · rw [save_lookup_other cur itR k' (hkR ▸ hk0)]
        exact hagree k' (fun kq' hkq' => by
          rcases List.mem_cons.mp hkq' with h | h
          · subst h; exact fun hcontra => hk0 hcontra.symm
          · exact hk' kq' h)

/-! ## C2: the allocation planner -/

/-- C2 counterexample: with two line items for the same product the plan
dict's overwrite makes the first line's allocation not sum to its
requested quantity — cart `[(P,1), (P,2)]` over a single 5-available
entry yields the plan `{(P,W1) ↦ 2}`, so line `(P,1)` is allocated 2. -/
theorem plan_per_line_cex :
    plan_inventory_allocation [⟨"P", 1⟩, ⟨"P", 2⟩]
        [⟨"P", "W1", 5, 0, 5, 0, 0⟩] = some [(("P", "W1"), 2)] ∧
    (⟨"P", 1⟩ : CartItem) ∈ [(⟨"P", 1⟩ : CartItem), ⟨"P", 2⟩] ∧
    ¬ allocSum [(("P", "W1"), 2)] "P" = (1 : Int) := by
  refine ⟨by decide, by decide, by decide⟩

/-- C2 (amended): over a well-formed store, the planner signals
infeasibility exactly when some line item requests more than the sum of
available quantities across that product's entries, it never mutates the
store (it is a pure function of it), and — for carts whose line items
carry pairwise distinct product ids, as the `Cart` entity guarantees —
each line item's allocations sum to exactly its requested quantity. -/
theorem plan_allocation_correct (cart_items : List CartItem)
    (items : List InventoryItem) (hwf : WFItems items)
    (hq : ∀ c ∈ cart_items, 0 < c.quantity) :
    (plan_inventory_allocation cart_items items = none ↔
      ∃ c ∈ cart_items, sumAvail items c.product_id < c.quantity) ∧
    ((cart_items.map (fun c => c.product_id)).Nodup →
      ∀ plan, plan_inventory_allocation cart_items items = some plan →
        ∀ c ∈ cart_items, allocSum plan c.product_id = c.quantity) := by
  obtain ⟨hk, hnn⟩ := hwf
  have hnn' : ∀ it ∈ items, 0 ≤ it.available_quantity :=
    fun it h => (hnn it h).1
  refine ⟨planGo_none_iff items hnn' cart_items [], fun hnd plan hp => ?_⟩
  exact (planGo_sum items hnn' hk cart_items [] plan hq hnd (by simp) hp).1

/-- Witness for C2 at a two-warehouse store: requesting 6 with 3 + 5
available is feasible and allocated exactly. -/
theorem plan_allocation_correct_witness :
    (plan_inventory_allocation [⟨"P", 6⟩]
        [⟨"P", "W1", 3, 0, 3, 0, 0⟩, ⟨"P", "W2", 5, 0, 5, 0, 0⟩] = none ↔
      ∃ c ∈ [(⟨"P", 6⟩ : CartItem)],
        sumAvail [⟨"P", "W1", 3, 0, 3, 0, 0⟩, ⟨"P", "W2", 5, 0, 5, 0, 0⟩]
          c.product_id < c.quantity) ∧
    (([(⟨"P", 6⟩ : CartItem)].map (fun c => c.product_id)).Nodup →
      ∀ plan, plan_inventory_allocation [⟨"P", 6⟩]
          [⟨"P", "W1", 3, 0, 3, 0, 0⟩, ⟨"P", "W2", 5, 0, 5, 0, 0⟩] = some plan →
        ∀ c ∈ [(⟨"P", 6⟩ : CartItem)], allocSum plan c.product_id = c.quantity) :=
  plan_allocation_correct [⟨"P", 6⟩]
    [⟨"P", "W1", 3, 0, 3, 0, 0⟩, ⟨"P", "W2", 5, 0, 5, 0, 0⟩]
    ⟨by decide, by decide⟩ (by decide)

/-! ## C1: all-or-nothing reservation -/

/-- C1: `reserve_items` (planning over `snapshot`, applying against the
live store — the two coincide in the sequential call `reserve_items`)
has exactly three outcomes.  (i) If planning yields a falsy plan — `None`
(infeasible) or the empty dict (empty cart) — it fails with
InsufficientInventory before any ledger mutation.  (ii)
Otherwise it either fails with ReservationFailed — in which case every
hold acquired in the attempt has been rolled back, leaving every ledger
entry's observable fields (available and reserved included) as before the
call and persisting no reservation — or (iii) returns the fresh id of a
newly persisted ACTIVE reservation whose held quantities are exactly the
stringified allocation plan, with each planned quantity moved from
available to reserved on its ledger entry and every other entry
untouched. -/
theorem reserve_items_all_or_nothing (snapshot : List InventoryItem)
    (cart_items : List CartItem) (customer_id reservation_id : String)
    (st : ServiceState) (now : Nat)
    (hwfS : WFItems snapshot) (hwfL : WFItems st.items)
    (hfresh : ∀ r ∈ st.reservations, r.reservation_id ≠ reservation_id) :
    (plan_inventory_allocation cart_items snapshot = none ∨
        plan_inventory_allocation cart_items snapshot = some [] →
      reserve_items_from snapshot cart_items customer_id reservation_id st now =
        (.error .insufficientInventory, st)) ∧
    (∀ plan, plan_inventory_allocation cart_items snapshot = some plan →
      plan ≠ [] →
      ((reserve_items_from snapshot cart_items customer_id reservation_id st now).1 =
          .error .reservationFailed ∨
       (reserve_items_from snapshot cart_items customer_id reservation_id st now).1 =
          .ok reservation_id) ∧
      ((reserve_items_from snapshot cart_items customer_id reservation_id st now).1 =
          .error .reservationFailed →
        (reserve_items_from snapshot cart_items customer_id reservation_id st
            now).2.reservations = st.reservations ∧
        (∀ k, Option.map stripTs (lookupKey (reserve_items_from snapshot cart_items
            customer_id reservation_id st now).2.items k) =
          Option.map stripTs (lookupKey st.items k))) ∧
      ((reserve_items_from snapshot cart_items customer_id reservation_id st now).1 =
          .ok reservation_id →
        (reserve_items_from snapshot cart_items customer_id reservation_id st
            now).2.reservations = st.reservations ++
          [InventoryReservation.create reservation_id customer_id
            (plan.map (fun e => (encodeKey e.1.1 e.1.2, e.2)))
            default_reservation_expiry_minutes now] ∧
        (∀ e ∈ plan, 0 < e.2 ∧ ∃ it,
          find_inventory_item st.items e.1.1 e.1.2 = some it ∧
          e.2 ≤ it.available_quantity ∧
          find_inventory_item (reserve_items_from snapshot cart_items customer_id
              reservation_id st now).2.items e.1.1 e.1.2 =
            some (reservedItem it e.2 now)) ∧
        (∀ k, (∀ e ∈ plan, encodeKey e.1.1 e.1.2 ≠ k) →
          lookupKey (reserve_items_from snapshot cart_items customer_id
            reservation_id st now).2.items k = lookupKey st.items k))) := by
  constructor
  · intro hfalsy
    rcases hfalsy with hnone | hempty
    · rw [reserve_items_from, hnone]
    · rw [reserve_items_from]
      simp only [hempty]
      simp
  · intro plan hplan hne
    have hsound : ∀ kv ∈ plan, PlanEntrySound snapshot kv :=
      planGo_sound snapshot cart_items [] plan (by simp) hplan
    have hpairs : (plan.map (fun e => e.1)).Nodup :=
      planGo_keys_nodup snapshot cart_items [] plan (by simp) hplan
    have hnd : (plan.map (fun e => encodeKey e.1.1 e.1.2)).Nodup :=
      plan_string_keys_nodup snapshot plan hwfS.1 hsound hpairs
    cases happly : applyGo now plan st.items [] [] with
    | error ri =>
      have hR : reserve_items_from snapshot cart_items customer_id
          reservation_id st now = (.error .reservationFailed,
            { st with items := rollback_reservations ri.1 ri.2 now }) := by
        rw [reserve_items_from]
        simp only [hplan]
        rw [if_neg hne]
        simp only [happly]
      rw [hR]
      refine ⟨Or.inl rfl, fun _ => ⟨rfl, ?_⟩, fun hcontra => absurd hcontra (by simp)⟩
      obtain ⟨pre, hpre1, hpre2, _hpre5, hpre3, hpre4⟩ :=
        applyGo_err_spec now plan st.items [] [] ri.1 ri.2 hnd happly
      rw [List.nil_append] at hpre1
      subst hpre1
      refine rollback_restores now ri.1 ri.2 st.items now hpre2 ?_ ?_
      · intro kq hkq
        obtain ⟨hq, it, hbase, hcur⟩ := hpre3 kq hkq
        refine ⟨hq, it, hbase, ?_, hcur⟩
        exact (hwfL.2 it (lookupKey_mem st.items kq.1 it hbase).1).2
      · intro k hk
        rw [hpre4 k hk]
    | ok ri =>
      obtain ⟨hrecd, hother, hentries⟩ :=
        applyGo_ok_spec now plan st.items [] [] ri.1 ri.2 hnd (by simp) happly
      rw [List.nil_append] at hrecd
      have hR : reserve_items_from snapshot cart_items customer_id
          reservation_id st now = (.ok reservation_id,
            { items := ri.2
              reservations := save_reservation st.reservations
                (InventoryReservation.create reservation_id customer_id ri.1
                  default_reservation_expiry_minutes now) }) := by
        rw [reserve_items_from]
        simp only [hplan]
        rw [if_neg hne]
        simp only [happly]
      rw [hR]
      have hsave : save_reservation st.reservations
          (InventoryReservation.create reservation_id customer_id ri.1
            default_reservation_expiry_minutes now) =
          st.reservations ++ [InventoryReservation.create reservation_id customer_id
            ri.1 default_reservation_expiry_minutes now] := by
        rw [save_reservation, if_neg]
        simp only [List.any_eq_true, decide_eq_true_eq, not_exists, not_and]
        intro r hr
        exact hfresh r hr
      refine ⟨Or.inr rfl, fun hcontra => absurd hcontra (by simp), fun _ => ?_⟩
      refine ⟨?_, ?_, ?_⟩
      · dsimp only
        rw [hsave, hrecd]
      · intro e he
        obtain ⟨hq, it, hl, hav, hl'⟩ := hentries e he
        exact ⟨hq, it, find_inventory_item_eq st.items e.1.1 e.1.2 ▸ hl, hav,
          find_inventory_item_eq ri.2 e.1.1 e.1.2 ▸ hl'⟩
      · intro k hk
        exact hother k hk

/-- Witness for C1: a cart requesting more than the whole stock fails
with InsufficientInventory and leaves the state untouched — and so does
the empty cart, whose plan is the falsy empty dict. -/
theorem reserve_items_all_or_nothing_witness :
    reserve_items_from [⟨"P", "W1", 5, 0, 5, 0, 0⟩] [⟨"P", 9⟩] "cust" "r1"
      ⟨[⟨"P", "W1", 5, 0, 5, 0, 0⟩], []⟩ 0 =
      (.error .insufficientInventory, ⟨[⟨"P", "W1", 5, 0, 5, 0, 0⟩], []⟩) ∧
    reserve_items_from [⟨"P", "W1", 5, 0, 5, 0, 0⟩] [] "cust" "r1"
      ⟨[⟨"P", "W1", 5, 0, 5, 0, 0⟩], []⟩ 0 =
      (.error .insufficientInventory, ⟨[⟨"P", "W1", 5, 0, 5, 0, 0⟩], []⟩) :=
  ⟨(reserve_items_all_or_nothing [⟨"P", "W1", 5, 0, 5, 0, 0⟩] [⟨"P", 9⟩]
      "cust" "r1" ⟨[⟨"P", "W1", 5, 0, 5, 0, 0⟩], []⟩ 0
      ⟨by decide, by decide⟩ ⟨by decide, by decide⟩ (by decide)).1
      (Or.inl (by decide)),
    (reserve_items_all_or_nothing [⟨"P", "W1", 5, 0, 5, 0, 0⟩] []
      "cust" "r1" ⟨[⟨"P", "W1", 5, 0, 5, 0, 0⟩], []⟩ 0
      ⟨by decide, by decide⟩ ⟨by decide, by decide⟩ (by decide)).1
      (Or.inr (by decide))⟩

/-! ## Splitting keys back -/

/-- A successful split decomposes the original character list. -/
theorem splitFirstAux_sound : ∀ (l x y : List Char),
    splitFirstAux l = some (x, y) → l = x ++ '_' :: y := by
  intro l
  induction l with
  | nil => intro x y h; exact absurd h (by simp [splitFirstAux])
  | cons c cs ih =>
    intro x y h
    rw [splitFirstAux] at h
    split at h
    · rename_i hc
      injection h with h'
      injection h' with h1 h2
      subst h1
      subst h2
      rw [hc]
      rfl
    · rename_i hc
      cases hs : splitFirstAux cs with
      | none => rw [hs] at h; exact absurd h (by simp)
      | some ab =>
        obtain ⟨a, b⟩ := ab
        rw [hs] at h
        injection h with h'
        injection h' with h1 h2
        subst h1
        subst h2
        rw [List.cons_append]
        exact congrArg (c :: ·) (ih a b hs)

/-- Splitting at the first underscore and re-encoding gives the key
back. -/
theorem splitKey_rejoin (k : String) (a b : String)
    (h : splitKey k = some (a, b)) : encodeKey a b = k := by
  rw [splitKey] at h
  cases hs : splitFirstAux k.toList with
  | none => rw [hs] at h; exact absurd h (by simp)
  | some ab =>
    obtain ⟨x, y⟩ := ab
    rw [hs] at h
    injection h with h'
    injection h' with h1 h2
    subst h1
    subst h2
    have hl := splitFirstAux_sound k.toList x y hs
    have : (encodeKey (String.mk x) (String.mk y)).toList = k.toList := by
      rw [toList_encodeKey]
      exact hl.symm
    cases k with
    | mk kd => exact congrArg String.mk this

/-! ## Confirm / release loops over held items -/

/-- The ledger entry after a (positive-quantity) `confirm_reservation`. -/
def confirmApplied (it : InventoryItem) (q : Int) (now : Nat) : InventoryItem :=
  { it with
    reserved_quantity := it.reserved_quantity - min q it.reserved_quantity
    total_sold := it.total_sold + min q it.reserved_quantity
    last_updated := now }

/-- The ledger entry after a (positive-quantity) `release_reservation`. -/
def releaseApplied (it : InventoryItem) (q : Int) (now : Nat) : InventoryItem :=
  { it with
    reserved_quantity := it.reserved_quantity - min q it.reserved_quantity
    available_quantity := it.available_quantity + min q it.reserved_quantity
    last_updated := now }

/-- `confirm_reservation` with a positive quantity. -/
theorem confirm_reservation_pos (it : InventoryItem) (q : Int) (now : Nat)
    (hq : 0 < q) : it.confirm_reservation q now =
      some (min q it.reserved_quantity, confirmApplied it q now) := by
  rw [InventoryItem.confirm_reservation, if_neg (by omega)]
  rfl

/-- `release_reservation` with a positive quantity. -/
theorem release_reservation_pos (it : InventoryItem) (q : Int) (now : Nat)
    (hq : 0 < q) : it.release_reservation q now =
      some (min q it.reserved_quantity, releaseApplied it q now) := by
  rw [InventoryItem.release_reservation, if_neg (by omega)]
  rfl

/-- The confirm loop over well-formed holds with distinct keys: it
succeeds, confirms each held key's entry when it exists, and leaves every
other key's entry unchanged. -/
theorem confirmHolds_spec (now : Nat) : ∀ (holds : List (String × Int))
    (items : List InventoryItem),
    (∀ kq ∈ holds, 0 < kq.2 ∧ (splitKey kq.1).isSome) →
    ((holds.map (fun kq => kq.1)).Nodup) →
    ∃ items', confirmHolds now holds items = .ok items' ∧
      (∀ k, (∀ kq ∈ holds, kq.1 ≠ k) → lookupKey items' k = lookupKey items k) ∧
      (∀ kq ∈ holds, ∀ it, lookupKey items kq.1 = some it →
        lookupKey items' kq.1 = some (confirmApplied it kq.2 now)) := by
  intro holds
  induction holds with
  | nil =>
    intro items _ _
    exact ⟨items, rfl, fun k _ => rfl, by simp⟩
  | cons kq rest ih =>
    intro items hwf hnd
    obtain ⟨hq, hsplit⟩ := hwf kq (List.mem_cons_self kq rest)
    obtain ⟨pw, hpw⟩ := Option.isSome_iff_exists.mp hsplit
    have hrejoin : encodeKey pw.1 pw.2 = kq.1 := splitKey_rejoin kq.1 pw.1 pw.2 (by
      rw [hpw])
    have hndc := List.nodup_cons.mp
      (show (kq.1 :: rest.map (fun x => x.1)).Nodup from hnd)
    have hKrest : ∀ kq' ∈ rest, kq'.1 ≠ kq.1 := by
      intro kq' hkq' hcontra
      exact hndc.1 (hcontra ▸ List.mem_map.mpr ⟨kq', hkq', rfl⟩)
    obtain ⟨k, q⟩ := kq
    cases hfind : find_inventory_item items pw.1 pw.2 with
    | none =>
      obtain ⟨items', hok, hagree, heach⟩ := ih items
        (fun x hx => hwf x (List.mem_cons_of_mem _ hx)) hndc.2
      refine ⟨items', ?_, ?_, ?_⟩
      · rw [confirmHolds]
        simp only [hpw, hfind]
        exact hok
      · intro k' hk'
        exact hagree k' (fun x hx => hk' x (List.mem_cons_of_mem _ hx))
      · intro kq' hkq'
        rcases List.mem_cons.mp hkq' with hkq' | hkq'
        · subst hkq'
          intro it hit
          rw [find_inventory_item_eq, hrejoin] at hfind
          simp only at hit
          rw [hit] at hfind
          exact absurd hfind (by simp)
        · exact heach kq' hkq'
    | some it =>
      have hkeyit : itemKey it = k := by
        have := (lookupKey_mem items _ it
          (find_inventory_item_eq items pw.1 pw.2 ▸ hfind)).2
        rw [hrejoin] at this
        exact this
      obtain ⟨items', hok, hagree, heach⟩ := ih
        (save_inventory_item items (confirmApplied it q now))
        (fun x hx => hwf x (List.mem_cons_of_mem _ hx)) hndc.2
      refine ⟨items', ?_, ?_, ?_⟩
      · rw [confirmHolds]
        simp only [hpw, hfind, confirm_reservation_pos it q now hq]
        exact hok
      · intro k' hk'
        have hk'K : k ≠ k' := hk' (k, q) (List.mem_cons_self _ _)
        rw [hagree k' (fun x hx => hk' x (List.mem_cons_of_mem _ hx)),
          save_lookup_other items _ k']
        rw [show itemKey (confirmApplied it q now) = k from hkeyit]
        exact hk'K.symm
      · intro kq' hkq'
        rcases List.mem_cons.mp hkq' with hkq' | hkq'
        · subst hkq'
          intro it₀ hit₀
          simp only at hit₀
          have : it₀ = it := by
            rw [find_inventory_item_eq, hrejoin, hit₀] at hfind
            injection hfind
          subst this
          rw [hagree _ hKrest]
          have := save_lookup_self items (confirmApplied it₀ q now)
          rw [show itemKey (confirmApplied it₀ q now) = k from hkeyit] at this
          exact this
        · intro it₀ hit₀
          refine heach kq' hkq' it₀ ?_
          rw [save_lookup_other items _ kq'.1, hit₀]
          rw [show itemKey (confirmApplied it q now) = k from hkeyit]
          exact hKrest kq' hkq'

/-- The release loop over well-formed holds with distinct keys: it
succeeds, releases each held key's entry when it exists, and leaves every
other key's entry unchanged. -/
theorem releaseHolds_spec (now : Nat) : ∀ (holds : List (String × Int))
    (items : List InventoryItem),
    (∀ kq ∈ holds, 0 < kq.2 ∧ (splitKey kq.1).isSome) →
    ((holds.map (fun kq => kq.1)).Nodup) →
    ∃ items', releaseHolds now holds items = .ok items' ∧
      (∀ k, (∀ kq ∈ holds, kq.1 ≠ k) → lookupKey items' k = lookupKey items k) ∧
      (∀ kq ∈ holds, ∀ it, lookupKey items kq.1 = some it →
        lookupKey items' kq.1 = some (releaseApplied it kq.2 now)) := by
  intro holds
  induction holds with
  | nil =>
    intro items _ _
    exact ⟨items, rfl, fun k _ => rfl, by simp⟩
  | cons kq rest ih =>
    intro items hwf hnd
    obtain ⟨hq, hsplit⟩ := hwf kq (List.mem_cons_self kq rest)
    obtain ⟨pw, hpw⟩ := Option.isSome_iff_exists.mp hsplit
    have hrejoin : encodeKey pw.1 pw.2 = kq.1 := splitKey_rejoin kq.1 pw.1 pw.2 (by
      rw [hpw])
    have hndc := List.nodup_cons.mp
      (show (kq.1 :: rest.map (fun x => x.1)).Nodup from hnd)
    have hKrest : ∀ kq' ∈ rest, kq'.1 ≠ kq.1 := by
      intro kq' hkq' hcontra
      exact hndc.1 (hcontra ▸ List.mem_map.mpr ⟨kq', hkq', rfl⟩)
    obtain ⟨k, q⟩ := kq
    cases hfind : find_inventory_item items pw.1 pw.2 with
    | none =>
      obtain ⟨items', hok, hagree, heach⟩ := ih items
        (fun x hx => hwf x (List.mem_cons_of_mem _ hx)) hndc.2
      refine ⟨items', ?_, ?_, ?_⟩
      · rw [releaseHolds]
        simp only [hpw, hfind]
        exact hok
      · intro k' hk'
        exact hagree k' (fun x hx => hk' x (List.mem_cons_of_mem _ hx))
      · intro kq' hkq'
        rcases List.mem_cons.mp hkq' with hkq' | hkq'
        · subst hkq'
          intro it hit
          rw [find_inventory_item_eq, hrejoin] at hfind
          simp only at hit
          rw [hit] at hfind
          exact absurd hfind (by simp)
        · exact heach kq' hkq'
    | some it =>
      have hkeyit : itemKey it = k := by
        have := (lookupKey_mem items _ it
          (find_inventory_item_eq items pw.1 pw.2 ▸ hfind)).2
        rw [hrejoin] at this
        exact this
      obtain ⟨items', hok, hagree, heach⟩ := ih
        (save_inventory_item items (releaseApplied it q now))
        (fun x hx => hwf x (List.mem_cons_of_mem _ hx)) hndc.2
      refine ⟨items', ?_, ?_, ?_⟩
      · rw [releaseHolds]
        simp only [hpw, hfind, release_reservation_pos it q now hq]
        exact hok
      · intro k' hk'
        have hk'K : k ≠ k' := hk' (k, q) (List.mem_cons_self _ _)
        rw [hagree k' (fun x hx => hk' x (List.mem_cons_of_mem _ hx)),
          save_lookup_other items _ k']
        rw [show itemKey (releaseApplied it q now) = k from hkeyit]
        exact hk'K.symm
      · intro kq' hkq'
        rcases List.mem_cons.mp hkq' with hkq' | hkq'
        · subst hkq'
          intro it₀ hit₀
          simp only at hit₀
          have : it₀ = it := by
            rw [find_inventory_item_eq, hrejoin, hit₀] at hfind
            injection hfind
          subst this
          rw [hagree _ hKrest]
          have := save_lookup_self items (releaseApplied it₀ q now)
          rw [show itemKey (releaseApplied it₀ q now) = k from hkeyit] at this
          exact this
        · intro it₀ hit₀
          refine heach kq' hkq' it₀ ?_
          rw [save_lookup_other items _ kq'.1, hit₀]
          rw [show itemKey (releaseApplied it q now) = k from hkeyit]
          exact hKrest kq' hkq'

/-! ## Reservation dict lemmas -/

/-- Replacement under one reservation id leaves other ids' lookups
unchanged. -/
theorem res_find?_replace (rs : List InventoryReservation)
    (r' : InventoryReservation) (i : String) (hi : i ≠ r'.reservation_id) :
    (rs.map (fun x => if x.reservation_id = r'.reservation_id then r' else x)).find?
      (fun x => x.reservation_id = i) = rs.find? (fun x => x.reservation_id = i) := by
  induction rs with
  | nil => rfl
  | cons x xs ih =>
    by_cases hm : x.reservation_id = r'.reservation_id
    · rw [List.map_cons, if_pos hm,
        List.find?_cons_of_neg _ (by simp [hi.symm]),
        List.find?_cons_of_neg _ (by simp [hm, hi.symm])]
      exact ih
    · rw [List.map_cons, if_neg hm]
      by_cases hx : x.reservation_id = i
      · rw [List.find?_cons_of_pos _ (by simp [hx]),
          List.find?_cons_of_pos _ (by simp [hx])]
      · rw [List.find?_cons_of_neg _ (by simp [hx]),
          List.find?_cons_of_neg _ (by simp [hx])]
        exact ih

/-- Appending a record with a different id does not change a lookup. -/
theorem res_find?_append_single (rs : List InventoryReservation)
    (r' : InventoryReservation) (i : String) (hi : i ≠ r'.reservation_id) :
    find_reservation (rs ++ [r']) i = find_reservation rs i := by
  induction rs with
  | nil =>
    rw [find_reservation, find_reservation, List.nil_append,
      List.find?_cons_of_neg _ (by simp [hi.symm])]
  | cons x xs ih =>
    by_cases hx : x.reservation_id = i
    · rw [find_reservation, find_reservation, List.cons_append,
        List.find?_cons_of_pos _ (by simp [hx]),
        List.find?_cons_of_pos _ (by simp [hx])]
    · rw [find_reservation, find_reservation, List.cons_append,
        List.find?_cons_of_neg _ (by simp [hx]),
        List.find?_cons_of_neg _ (by simp [hx])]
      exact ih

/-- Saving a reservation does not change other ids' lookups. -/
theorem save_res_lookup_other (rs : List InventoryReservation)
    (r' : InventoryReservation) (i : String) (hi : i ≠ r'.reservation_id) :
    find_reservation (save_reservation rs r') i = find_reservation rs i := by
  rw [save_reservation]
  split
  · exact res_find?_replace rs r' i hi
  · exact res_find?_append_single rs r' i hi

/-- Replacement under a present id makes that id find the new record. -/
theorem res_find?_replace_self (rs : List InventoryReservation)
    (r' : InventoryReservation) (h : ∃ x ∈ rs, x.reservation_id = r'.reservation_id) :
    (rs.map (fun x => if x.reservation_id = r'.reservation_id then r' else x)).find?
      (fun x => x.reservation_id = r'.reservation_id) = some r' := by
  induction rs with
  | nil => exact absurd h (by simp)
  | cons x xs ih =>
    by_cases hm : x.reservation_id = r'.reservation_id
    · rw [List.map_cons, if_pos hm, List.find?_cons_of_pos _ (by simp)]
    · rw [List.map_cons, if_neg hm, List.find?_cons_of_neg _ (by simp [hm])]
      refine ih ?_
      obtain ⟨y, hy, hyk⟩ := h
      rcases List.mem_cons.mp hy with h1 | h1
      · exact absurd (h1 ▸ hyk) hm
      · exact ⟨y, h1, hyk⟩

/-- Saving a reservation makes its id find it. -/
theorem save_res_lookup_self (rs : List InventoryReservation)
    (r' : InventoryReservation) :
    find_reservation (save_reservation rs r') r'.reservation_id = some r' := by
  rw [save_reservation]
  split
  · rename_i hany
    rw [List.any_eq_true] at hany
    refine res_find?_replace_self rs r' ?_
    obtain ⟨x, hx, hxk⟩ := hany
    exact ⟨x, hx, by simpa using hxk⟩
  · rename_i hany
    rw [find_reservation]
    induction rs with
    | nil => rw [List.nil_append, List.find?_cons_of_pos _ (by simp)]
    | cons x xs ih =>
      have hx : ¬ x.reservation_id = r'.reservation_id := by
        intro hcontra
        exact hany (by simp [List.any_cons, hcontra])
      rw [List.cons_append, List.find?_cons_of_neg _ (by simp [hx])]
      exact ih (fun hxs => hany (by simp [List.any_cons, hxs]))

/-- Saving under a present id keeps the id sequence of the dict. -/
theorem save_res_ids_of_present (rs : List InventoryReservation)
    (r' : InventoryReservation)
    (h : ∃ x ∈ rs, x.reservation_id = r'.reservation_id) :
    (save_reservation rs r').map (fun x => x.reservation_id) =
      rs.map (fun x => x.reservation_id) := by
  rw [save_reservation, if_pos]
  · rw [List.map_map]
    refine List.map_congr_left ?_
    intro x _
    by_cases hk : x.reservation_id = r'.reservation_id
    · simp [Function.comp, hk]
    · simp [Function.comp, hk]
  · rw [List.any_eq_true]
    obtain ⟨x, hx, hxk⟩ := h
    exact ⟨x, hx, by simpa using hxk⟩

/-- In a dict (distinct ids), each member is what its own id finds. -/
theorem find_reservation_self (rs : List InventoryReservation)
    (hnd : (rs.map (fun x => x.reservation_id)).Nodup)
    (r : InventoryReservation) (hr : r ∈ rs) :
    find_reservation rs r.reservation_id = some r := by
  induction rs with
  | nil => exact absurd hr (by simp)
  | cons x xs ih =>
    have hndc := List.nodup_cons.mp
      (show (x.reservation_id :: xs.map (fun y => y.reservation_id)).Nodup from hnd)
    by_cases hx : x.reservation_id = r.reservation_id
    · rcases List.mem_cons.mp hr with h1 | h1
      · subst h1
        rw [find_reservation, List.find?_cons_of_pos _ (by simp)]
      · exact absurd (hx ▸ List.mem_map.mpr ⟨r, h1, rfl⟩) hndc.1
    · rcases List.mem_cons.mp hr with h1 | h1
      · exact absurd (h1 ▸ rfl) hx
      · rw [find_reservation, List.find?_cons_of_neg _ (by simp [hx])]
        exact ih hndc.2 h1

/-- The release loop always succeeds over well-formed holds (missing
entries are skipped, positive quantities never raise). -/
theorem releaseHolds_ok (now : Nat) : ∀ (holds : List (String × Int))
    (items : List InventoryItem),
    (∀ kq ∈ holds, 0 < kq.2 ∧ (splitKey kq.1).isSome) →
    ∃ items', releaseHolds now holds items = .ok items' := by
  intro holds
  induction holds with
  | nil => intro items _; exact ⟨items, rfl⟩
  | cons kq rest ih =>
    intro items hwf
    obtain ⟨hq, hsplit⟩ := hwf kq (List.mem_cons_self kq rest)
    obtain ⟨pw, hpw⟩ := Option.isSome_iff_exists.mp hsplit
    obtain ⟨k, q⟩ := kq
    cases hfind : find_inventory_item items pw.1 pw.2 with
    | none =>
      obtain ⟨items', hok⟩ := ih items
        (fun x hx => hwf x (List.mem_cons_of_mem _ hx))
      refine ⟨items', ?_⟩
      rw [releaseHolds]
      simp only [hpw, hfind]
      exact hok
    | some it =>
      obtain ⟨items', hok⟩ := ih
        (save_inventory_item items (releaseApplied it q now))
        (fun x hx => hwf x (List.mem_cons_of_mem _ hx))
      refine ⟨items', ?_⟩
      rw [releaseHolds]
      simp only [hpw, hfind, release_reservation_pos it q now hq]
      exact hok

/-! ## C5: confirm_reservation -/

/-- C5: confirming fails with NotFound for an unknown id and with
InvalidState when the record is not active at `now` — activeness being
re-derived from the expiry, so a stored-ACTIVE record past its deadline
also fails.  On success every held key's ledger entry (when present) gets
`confirm_reservation` applied with the held quantity, the record is
saved CONFIRMED with the confirmation timestamp, and confirming the same
id again on the resulting state fails with InvalidState. -/
theorem confirm_reservation_service_spec (reservation_id : String)
    (st : ServiceState) (now : Nat) :
    (find_reservation st.reservations reservation_id = none →
      InventoryService.confirm_reservation reservation_id st now =
        (.error .notFound, st)) ∧
    (∀ r, find_reservation st.reservations reservation_id = some r →
      (r.is_active now = false →
        InventoryService.confirm_reservation reservation_id st now =
          (.error .invalidState, st)) ∧
      (r.is_active now = true → WFReservation r →
        (r.items.map (fun kq => kq.1)).Nodup →
        ∃ items', confirmHolds now r.items st.items = .ok items' ∧
          InventoryService.confirm_reservation reservation_id st now =
            (.ok (),
              { items := items'
                reservations := save_reservation st.reservations
                  { r with
                    status := ReservationStatus.CONFIRMED
                    confirmed_at := some now } }) ∧
          (∀ kq ∈ r.items, ∀ it, lookupKey st.items kq.1 = some it →
            lookupKey items' kq.1 = some (confirmApplied it kq.2 now)) ∧
          (∀ k, (∀ kq ∈ r.items, kq.1 ≠ k) →
            lookupKey items' k = lookupKey st.items k) ∧
          (InventoryService.confirm_reservation reservation_id
            { items := items'
              reservations := save_reservation st.reservations
                { r with
                  status := ReservationStatus.CONFIRMED
                  confirmed_at := some now } } now).1 = .error .invalidState)) := by
  constructor
  · intro hnone
    rw [InventoryService.confirm_reservation]
    simp only [hnone]
  · intro r hfind
    constructor
    · intro hinactive
      rw [InventoryService.confirm_reservation]
      simp only [hfind, hinactive]
      rw [if_neg (by simp [hinactive])]
    · intro hactive hwf hnd
      obtain ⟨items', hok, hagree, heach⟩ :=
        confirmHolds_spec now r.items st.items hwf hnd
      have hconf : r.confirm now = some
          { r with
            status := ReservationStatus.CONFIRMED
            confirmed_at := some now } := by
        rw [InventoryReservation.confirm, if_pos (by simp [hactive])]
      have hrid : r.reservation_id = reservation_id := by
        have := List.find?_some hfind
        simpa using this
      have hsvc : InventoryService.confirm_reservation reservation_id st now =
          (.ok (),
            { items := items'
              reservations := save_reservation st.reservations
                { r with
                  status := ReservationStatus.CONFIRMED
                  confirmed_at := some now } }) := by
        rw [InventoryService.confirm_reservation]
        simp only [hfind, hok, hconf]
        rw [if_pos (by simp [hactive])]
      refine ⟨items', hok, hsvc, heach, hagree, ?_⟩
      rw [InventoryService.confirm_reservation]
      have hfind2 : find_reservation (save_reservation st.reservations
          { r with
            status := ReservationStatus.CONFIRMED
            confirmed_at := some now }) reservation_id = some
          { r with
            status := ReservationStatus.CONFIRMED
            confirmed_at := some now } := by
        have := save_res_lookup_self st.reservations
          { r with
            status := ReservationStatus.CONFIRMED
            confirmed_at := some now }
        simpa [hrid] using this
      simp only [hfind2]
      rw [if_neg (by simp [InventoryReservation.is_active])]

/-- Witness for C5: confirming an active reservation holding 3 units of
an entry with 2 available / 3 reserved. -/
theorem confirm_reservation_service_spec_witness :
    ∃ items', confirmHolds 5 [("P_W1", 3)] [⟨"P", "W1", 2, 3, 5, 0, 0⟩] = .ok items' ∧
      InventoryService.confirm_reservation "r1"
        ⟨[⟨"P", "W1", 2, 3, 5, 0, 0⟩],
          [⟨"r1", "cust", [("P_W1", 3)], ReservationStatus.ACTIVE, 0, 15, none, none⟩]⟩ 5 =
        (.ok (),
          { items := items'
            reservations := save_reservation
              [⟨"r1", "cust", [("P_W1", 3)], ReservationStatus.ACTIVE, 0, 15, none, none⟩]
              { (⟨"r1", "cust", [("P_W1", 3)], ReservationStatus.ACTIVE, 0, 15, none,
                  none⟩ : InventoryReservation) with
                status := ReservationStatus.CONFIRMED
                confirmed_at := some 5 } }) ∧
      (∀ kq ∈ [("P_W1", (3 : Int))], ∀ it,
        lookupKey [⟨"P", "W1", 2, 3, 5, 0, 0⟩] kq.1 = some it →
        lookupKey items' kq.1 = some (confirmApplied it kq.2 5)) ∧
      (∀ k, (∀ kq ∈ [("P_W1", (3 : Int))], kq.1 ≠ k) →
        lookupKey items' k = lookupKey [⟨"P", "W1", 2, 3, 5, 0, 0⟩] k) ∧
      (InventoryService.confirm_reservation "r1"
        { items := items'
          reservations := save_reservation
            [⟨"r1", "cust", [("P_W1", 3)], ReservationStatus.ACTIVE, 0, 15, none, none⟩]
            { (⟨"r1", "cust", [("P_W1", 3)], ReservationStatus.ACTIVE, 0, 15, none,
                none⟩ : InventoryReservation) with
              status := ReservationStatus.CONFIRMED
              confirmed_at := some 5 } } 5).1 = .error .invalidState :=
  ((confirm_reservation_service_spec "r1"
    ⟨[⟨"P", "W1", 2, 3, 5, 0, 0⟩],
      [⟨"r1", "cust", [("P_W1", 3)], ReservationStatus.ACTIVE, 0, 15, none, none⟩]⟩ 5).2
    ⟨"r1", "cust", [("P_W1", 3)], ReservationStatus.ACTIVE, 0, 15, none, none⟩
    (by decide)).2 (by decide) (by unfold WFReservation; decide) (by decide)

/-! ## C6: cancel_reservation -/

/-- C6: cancelling returns `false` for an unknown id; returns `true`
without touching the state when the record is already CONFIRMED or
CANCELLED; and otherwise releases each held key's ledger entry (moving
the held quantity from reserved back to available), saves the record
CANCELLED with a timestamp and returns `true`, leaving every other key's
entry unchanged. -/
theorem cancel_reservation_service_spec (reservation_id : String)
    (st : ServiceState) (now : Nat) :
    (find_reservation st.reservations reservation_id = none →
      InventoryService.cancel_reservation reservation_id st now = (false, st)) ∧
    (∀ r, find_reservation st.reservations reservation_id = some r →
      (r.status = ReservationStatus.CONFIRMED ∨
          r.status = ReservationStatus.CANCELLED →
        InventoryService.cancel_reservation reservation_id st now = (true, st)) ∧
      (¬ (r.status = ReservationStatus.CONFIRMED ∨
          r.status = ReservationStatus.CANCELLED) → WFReservation r →
        (r.items.map (fun kq => kq.1)).Nodup →
        ∃ items', releaseHolds now r.items st.items = .ok items' ∧
          InventoryService.cancel_reservation reservation_id st now =
            (true,
              { items := items'
                reservations := save_reservation st.reservations
                  { r with
                    status := ReservationStatus.CANCELLED
                    cancelled_at := some now } }) ∧
          (∀ kq ∈ r.items, ∀ it, lookupKey st.items kq.1 = some it →
            lookupKey items' kq.1 = some (releaseApplied it kq.2 now)) ∧
          (∀ k, (∀ kq ∈ r.items, kq.1 ≠ k) →
            lookupKey items' k = lookupKey st.items k))) := by
  constructor
  · intro hnone
    rw [InventoryService.cancel_reservation]
    simp only [hnone]
  · intro r hfind
    constructor
    · intro hdone
      rw [InventoryService.cancel_reservation]
      simp only [hfind]
      rw [if_pos hdone]
    · intro hstat hwf hnd
      obtain ⟨items', hok, hagree, heach⟩ :=
        releaseHolds_spec now r.items st.items hwf hnd
      have hcan : r.cancel now = some
          { r with
            status := ReservationStatus.CANCELLED
            cancelled_at := some now } := by
        rw [InventoryReservation.cancel, if_neg hstat]
      refine ⟨items', hok, ?_, heach, hagree⟩
      rw [InventoryService.cancel_reservation]
      simp only [hfind, hok, hcan]
      rw [if_neg hstat]

/-- Witness for C6 (the spec's example): cancelling a 3-unit hold on an
entry with 2 available / 3 reserved. -/
theorem cancel_reservation_service_spec_witness :
    ∃ items', releaseHolds 9 [("P_W1", 3)] [⟨"P", "W1", 2, 3, 5, 0, 0⟩] = .ok items' ∧
      InventoryService.cancel_reservation "r1"
        ⟨[⟨"P", "W1", 2, 3, 5, 0, 0⟩],
          [⟨"r1", "cust", [("P_W1", 3)], ReservationStatus.ACTIVE, 0, 15, none, none⟩]⟩ 9 =
        (true,
          { items := items'
            reservations := save_reservation
              [⟨"r1", "cust", [("P_W1", 3)], ReservationStatus.ACTIVE, 0, 15, none, none⟩]
              { (⟨"r1", "cust", [("P_W1", 3)], ReservationStatus.ACTIVE, 0, 15, none,
                  none⟩ : InventoryReservation) with
                status := ReservationStatus.CANCELLED
                cancelled_at := some 9 } }) ∧
      (∀ kq ∈ [("P_W1", (3 : Int))], ∀ it,
        lookupKey [⟨"P", "W1", 2, 3, 5, 0, 0⟩] kq.1 = some it →
        lookupKey items' kq.1 = some (releaseApplied it kq.2 9)) ∧
      (∀ k, (∀ kq ∈ [("P_W1", (3 : Int))], kq.1 ≠ k) →
        lookupKey items' k = lookupKey [⟨"P", "W1", 2, 3, 5, 0, 0⟩] k) :=
  ((cancel_reservation_service_spec "r1"
    ⟨[⟨"P", "W1", 2, 3, 5, 0, 0⟩],
      [⟨"r1", "cust", [("P_W1", 3)], ReservationStatus.ACTIVE, 0, 15, none, none⟩]⟩ 9).2
    ⟨"r1", "cust", [("P_W1", 3)], ReservationStatus.ACTIVE, 0, 15, none, none⟩
    (by decide)).2 (by decide) (by unfold WFReservation; decide) (by decide)

/-! ## C8: the expiry sweep -/

/-- The sweep body over a snapshot of distinct-id ACTIVE records, each
still stored unchanged: it counts exactly the expired ones, cancels
exactly those, and leaves every other id's lookup unchanged. -/
theorem cleanupGo_spec (now : Nat) : ∀ (rem : List InventoryReservation)
    (st' : ServiceState) (n : Nat),
    (rem.map (fun r => r.reservation_id)).Nodup →
    (∀ r ∈ rem, r.status = ReservationStatus.ACTIVE ∧ WFReservation r ∧
      (r.items.map (fun kq => kq.1)).Nodup ∧
      find_reservation st'.reservations r.reservation_id = some r) →
    (cleanupGo now rem st' n).1 =
      n + (rem.filter (fun r => r.is_expired now)).length ∧
    (∀ r ∈ rem, r.is_expired now = true →
      find_reservation (cleanupGo now rem st' n).2.reservations
        r.reservation_id = some
        { r with
          status := ReservationStatus.CANCELLED
          cancelled_at := some now }) ∧
    (∀ i, (∀ r ∈ rem, r.is_expired now = false ∨ r.reservation_id ≠ i) →
      find_reservation (cleanupGo now rem st' n).2.reservations i =
        find_reservation st'.reservations i) := by
  intro rem
  induction rem with
  | nil =>
    intro st' n _ _
    exact ⟨by simp [cleanupGo], by simp, fun i _ => rfl⟩
  | cons r rest ih =>
    intro st' n hnd hfacts
    obtain ⟨hact, hwf, hitems, hfind⟩ := hfacts r (List.mem_cons_self r rest)
    have hndc := List.nodup_cons.mp
      (show (r.reservation_id ::
        rest.map (fun x => x.reservation_id)).Nodup from hnd)
    have hidrest : ∀ r' ∈ rest, r'.reservation_id ≠ r.reservation_id := by
      intro r' hr' hcontra
      exact hndc.1 (hcontra ▸ List.mem_map.mpr ⟨r', hr', rfl⟩)
    cases hexp : r.is_expired now with
    | false =>
      have hstep : cleanupGo now (r :: rest) st' n = cleanupGo now rest st' n := by
        rw [cleanupGo]
        simp [hexp]
      rw [hstep]
      obtain ⟨ih1, ih2, ih3⟩ := ih st' n hndc.2
        (fun r' hr' => hfacts r' (List.mem_cons_of_mem r hr'))
      refine ⟨?_, ?_, ?_⟩
      · rw [ih1, List.filter_cons, if_neg (by simp [hexp])]
      · intro r' hr' hexp'
        rcases List.mem_cons.mp hr' with h1 | h1
        · subst h1
          exact absurd hexp' (by simp [hexp])
        · exact ih2 r' h1 hexp'
      · intro i hi
        exact ih3 i (fun r' hr' => hi r' (List.mem_cons_of_mem r hr'))
    | true =>
      have hstat : ¬ (r.status = ReservationStatus.CONFIRMED ∨
          r.status = ReservationStatus.CANCELLED) := by
        simp [hact]
      obtain ⟨items', hok, hcanc, _, _⟩ :=
        ((cancel_reservation_service_spec r.reservation_id st' now).2 r hfind).2
          hstat hwf hitems
      have hstep : cleanupGo now (r :: rest) st' n = cleanupGo now rest
          { items := items'
            reservations := save_reservation st'.reservations
              { r with
                status := ReservationStatus.CANCELLED
                cancelled_at := some now } } (n + 1) := by
        rw [cleanupGo]
        simp [hexp, hcanc]
      rw [hstep]
      have hfacts' : ∀ r' ∈ rest, r'.status = ReservationStatus.ACTIVE ∧
          WFReservation r' ∧ (r'.items.map (fun kq => kq.1)).Nodup ∧
          find_reservation (save_reservation st'.reservations
            { r with
              status := ReservationStatus.CANCELLED
              cancelled_at := some now }) r'.reservation_id = some r' := by
        intro r' hr'
        obtain ⟨h1, h2, h3, h4⟩ := hfacts r' (List.mem_cons_of_mem r hr')
        refine ⟨h1, h2, h3, ?_⟩
        rw [save_res_lookup_other st'.reservations
          { r with
            status := ReservationStatus.CANCELLED
            cancelled_at := some now } r'.reservation_id (hidrest r' hr')]
        exact h4
      obtain ⟨ih1, ih2, ih3⟩ := ih
        { items := items'
          reservations := save_reservation st'.reservations
            { r with
              status := ReservationStatus.CANCELLED
              cancelled_at := some now } } (n + 1) hndc.2 hfacts'
      refine ⟨?_, ?_, ?_⟩
      · rw [ih1, List.filter_cons, if_pos (by simp [hexp])]
        simp only [List.length_cons]
        omega
      · intro r' hr' hexp'
        rcases List.mem_cons.mp hr' with h1 | h1
        · subst h1
          rw [ih3 r'.reservation_id
            (fun x hx => Or.inr (hidrest x hx))]
          exact save_res_lookup_self st'.reservations _
        · exact ih2 r' h1 hexp'
      · intro i hi
        have hne : r.reservation_id ≠ i := by
          rcases hi r (List.mem_cons_self r rest) with h | h
          · exact absurd hexp (by simp [h])
          · exact h
        rw [ih3 i (fun r' hr' => hi r' (List.mem_cons_of_mem r hr'))]
        exact save_res_lookup_other st'.reservations
          { r with
            status := ReservationStatus.CANCELLED
            cancelled_at := some now } i (Ne.symm hne)

/-- Expired records are ACTIVE records, so filtering the ACTIVE snapshot
by expiry equals filtering all records by expiry. -/
theorem filter_expired_active (rs : List InventoryReservation) (now : Nat) :
    (find_active_reservations rs).filter (fun r => r.is_expired now) =
      rs.filter (fun r => r.is_expired now) := by
  induction rs with
  | nil => rfl
  | cons x xs ih =>
    by_cases hstat : x.status = ReservationStatus.ACTIVE
    · rw [find_active_reservations, List.filter_cons, if_pos (by simp [hstat]),
        List.filter_cons, List.filter_cons]
      rw [show List.filter (fun r => r.is_expired now)
        (List.filter (fun r => decide (r.status = ReservationStatus.ACTIVE)) xs) =
          (find_active_reservations xs).filter (fun r => r.is_expired now) from rfl, ih]
    · have hexp : x.is_expired now = false := by
        rw [InventoryReservation.is_expired]
        simp [hstat]
      rw [find_active_reservations, List.filter_cons, if_neg (by simp [hstat]),
        List.filter_cons, if_neg (by simp [hexp])]
      exact ih

/-- In a dict, two members with the same id are equal. -/
theorem res_member_inj (rs : List InventoryReservation)
    (hnd : (rs.map (fun x => x.reservation_id)).Nodup)
    (r r' : InventoryReservation) (hr : r ∈ rs) (hr' : r' ∈ rs)
    (h : r.reservation_id = r'.reservation_id) : r = r' :=
  List.inj_on_of_nodup_map hnd hr hr' h

/-- C8: the sweep cancels exactly the stored-ACTIVE reservations whose
deadline has passed at sweep time, returns their number, and leaves every
reservation whose expiry is still in the future (or whose status is
already terminal) stored unchanged. -/
theorem cleanup_expired_reservations_spec (st : ServiceState) (now : Nat)
    (hids : (st.reservations.map (fun r => r.reservation_id)).Nodup)
    (hwfres : ∀ r ∈ st.reservations, WFReservation r ∧
      (r.items.map (fun kq => kq.1)).Nodup) :
    (cleanup_expired_reservations st now).1 =
      (st.reservations.filter (fun r => r.is_expired now)).length ∧
    (∀ r ∈ st.reservations, r.is_expired now = true →
      find_reservation (cleanup_expired_reservations st now).2.reservations
        r.reservation_id = some
        { r with
          status := ReservationStatus.CANCELLED
          cancelled_at := some now }) ∧
    (∀ r ∈ st.reservations, r.is_expired now = false →
      find_reservation (cleanup_expired_reservations st now).2.reservations
        r.reservation_id = some r) := by
  have hsubids : List.Sublist ((find_active_reservations st.reservations).map
      (fun r => r.reservation_id))
      (st.reservations.map (fun r => r.reservation_id)) :=
    (List.filter_sublist st.reservations).map _
  have hndact := List.Nodup.sublist hsubids hids
  obtain ⟨h1, h2, h3⟩ := cleanupGo_spec now
    (find_active_reservations st.reservations) st 0 hndact
    (by
      intro r hr
      have hmem := List.mem_filter.mp hr
      have hstat : r.status = ReservationStatus.ACTIVE := by simpa using hmem.2
      obtain ⟨hwf, hni⟩ := hwfres r hmem.1
      exact ⟨hstat, hwf, hni, find_reservation_self st.reservations hids r hmem.1⟩)
  refine ⟨?_, ?_, ?_⟩
  · rw [cleanup_expired_reservations, h1, filter_expired_active,
      Nat.zero_add]
  · intro r hr hexp
    have hact : r.status = ReservationStatus.ACTIVE := by
      rw [InventoryReservation.is_expired, Bool.and_eq_true] at hexp
      simpa using hexp.2
    exact h2 r (List.mem_filter.mpr ⟨hr, by simp [hact]⟩) hexp
  · intro r hr hexp
    rw [cleanup_expired_reservations, h3 r.reservation_id]
    · exact find_reservation_self st.reservations hids r hr
    · intro r' hr' 
      by_cases hid : r'.reservation_id = r.reservation_id
      · have : r' = r := res_member_inj st.reservations hids r' r
          (List.mem_filter.mp hr').1 hr hid
        subst this
        exact Or.inl hexp
      · exact Or.inr hid

/-- Witness for C8: one expired and one future ACTIVE reservation —
count 1, the expired one cancelled, the future one untouched. -/
theorem cleanup_expired_reservations_spec_witness :
    (cleanup_expired_reservations
      ⟨[], [⟨"r1", "c1", [("P_W1", 3)], ReservationStatus.ACTIVE, 0, 10, none, none⟩,
            ⟨"r2", "c2", [("P_W1", 2)], ReservationStatus.ACTIVE, 0, 1000, none, none⟩]⟩
      100).1 =
      (List.filter (fun r => r.is_expired 100)
        [(⟨"r1", "c1", [("P_W1", 3)], ReservationStatus.ACTIVE, 0, 10, none,
            none⟩ : InventoryReservation),
         ⟨"r2", "c2", [("P_W1", 2)], ReservationStatus.ACTIVE, 0, 1000, none, none⟩]).length ∧
    (∀ r ∈ [(⟨"r1", "c1", [("P_W1", 3)], ReservationStatus.ACTIVE, 0, 10, none,
          none⟩ : InventoryReservation),
        ⟨"r2", "c2", [("P_W1", 2)], ReservationStatus.ACTIVE, 0, 1000, none, none⟩],
      r.is_expired 100 = true →
      find_reservation (cleanup_expired_reservations
        ⟨[], [⟨"r1", "c1", [("P_W1", 3)], ReservationStatus.ACTIVE, 0, 10, none, none⟩,
              ⟨"r2", "c2", [("P_W1", 2)], ReservationStatus.ACTIVE, 0, 1000, none, none⟩]⟩
        100).2.reservations r.reservation_id = some
        { r with
          status := ReservationStatus.CANCELLED
          cancelled_at := some 100 }) ∧
    (∀ r ∈ [(⟨"r1", "c1", [("P_W1", 3)], ReservationStatus.ACTIVE, 0, 10, none,
          none⟩ : InventoryReservation),
        ⟨"r2", "c2", [("P_W1", 2)], ReservationStatus.ACTIVE, 0, 1000, none, none⟩],
      r.is_expired 100 = false →
      find_reservation (cleanup_expired_reservations
        ⟨[], [⟨"r1", "c1", [("P_W1", 3)], ReservationStatus.ACTIVE, 0, 10, none, none⟩,
              ⟨"r2", "c2", [("P_W1", 2)], ReservationStatus.ACTIVE, 0, 1000, none, none⟩]⟩
        100).2.reservations r.reservation_id = some r) :=
  cleanup_expired_reservations_spec
    ⟨[], [⟨"r1", "c1", [("P_W1", 3)], ReservationStatus.ACTIVE, 0, 10, none, none⟩,
          ⟨"r2", "c2", [("P_W1", 2)], ReservationStatus.ACTIVE, 0, 1000, none, none⟩]⟩
    100 (by decide) (by unfold WFReservation; decide)

/-! ## Availability accounting through the apply loop (for C9) -/

/-- `sumAvail` over a cons. -/
theorem sumAvail_cons (x : InventoryItem) (l : List InventoryItem)
    (pid : String) : sumAvail (x :: l) pid =
      (if x.product_id = pid then x.available_quantity else 0) +
        sumAvail l pid := by
  by_cases hx : x.product_id = pid
  · rw [sumAvail, find_inventory_by_product, List.filter_cons,
      if_pos (by simp [hx]), List.map_cons, List.sum_cons, if_pos hx]
    rfl
  · rw [sumAvail, find_inventory_by_product, List.filter_cons,
      if_neg (by simp [hx]), if_neg hx]
    simp [sumAvail, find_inventory_by_product]

/-- `allocSum` over a cons. -/
theorem allocSum_cons (e : (String × String) × Int) (plan : Plan)
    (pid : String) : allocSum (e :: plan) pid =
      (if e.1.1 = pid then e.2 else 0) + allocSum plan pid := by
  by_cases he : e.1.1 = pid
  · rw [allocSum, List.filter_cons, if_pos (by simp [he]), List.map_cons,
      List.sum_cons, if_pos he]
    rfl
  · rw [allocSum, List.filter_cons, if_neg (by simp [he]), if_neg he]
    simp [allocSum]

/-- Replacing at a key absent from the list is the identity. -/
theorem map_replace_no_match (xs : List InventoryItem) (it₂ : InventoryItem)
    (h : ∀ y ∈ xs, itemKey y ≠ itemKey it₂) :
    xs.map (fun y => if itemKey y = itemKey it₂ then it₂ else y) = xs := by
  have : xs.map (fun y => if itemKey y = itemKey it₂ then it₂ else y) =
      xs.map (fun y => y) := by
    refine List.map_congr_left ?_
    intro y hy
    rw [if_neg (h y hy)]
  rw [this, List.map_id']

/-- Saving under a key that the head does not carry commutes with the
cons. -/
theorem save_cons_ne (x : InventoryItem) (xs : List InventoryItem)
    (it₂ : InventoryItem) (hx : itemKey x ≠ itemKey it₂) :
    save_inventory_item (x :: xs) it₂ = x :: save_inventory_item xs it₂ := by
  rw [save_inventory_item, save_inventory_item]
  by_cases hany : xs.any (fun y => decide (itemKey y = itemKey it₂))
  · rw [if_pos (by simp [List.any_cons, hany]), if_pos hany, List.map_cons,
      if_neg hx]
  · rw [if_neg (by simp [List.any_cons, hx, hany]),
      if_neg hany, List.cons_append]

/-- Every entry of a save is an old entry or the saved one. -/
theorem save_mem (items : List InventoryItem) (it₂ : InventoryItem) :
    ∀ y ∈ save_inventory_item items it₂, y ∈ items ∨ y = it₂ := by
  intro y hy
  rw [save_inventory_item] at hy
  split at hy
  · obtain ⟨e, he, heq⟩ := List.mem_map.mp hy
    by_cases hk : itemKey e = itemKey it₂
    · right; simp only [if_pos hk] at heq; exact heq.symm
    · left; simp only [if_neg hk] at heq; exact heq ▸ he
  · rcases List.mem_append.mp hy with h | h
    · exact Or.inl h
    · right; simpa using h

/-- In a dict, each member is what its own key finds. -/
theorem lookupKey_self_of_nodup (items : List InventoryItem)
    (hnd : (items.map itemKey).Nodup) (it : InventoryItem) (hit : it ∈ items) :
    lookupKey items (itemKey it) = some it := by
  induction items with
  | nil => exact absurd hit (by simp)
  | cons x xs ih =>
    have hndc := List.nodup_cons.mp
      (show (itemKey x :: xs.map itemKey).Nodup from hnd)
    by_cases hx : itemKey x = itemKey it
    · rcases List.mem_cons.mp hit with h1 | h1
      · subst h1
        rw [lookupKey, List.find?_cons_of_pos _ (by simp)]
      · exact absurd (hx ▸ List.mem_map.mpr ⟨it, h1, rfl⟩) hndc.1
    · rcases List.mem_cons.mp hit with h1 | h1
      · exact absurd (h1 ▸ rfl) hx
      · rw [lookupKey, List.find?_cons_of_neg _ (by simp [hx])]
        exact ih hndc.2 h1

/-- How a save at a present key changes a product's availability sum. -/
theorem sumAvail_save (items : List InventoryItem) (it it₂ : InventoryItem)
    (hk2 : itemKey it₂ = itemKey it) (hp2 : it₂.product_id = it.product_id)
    (hfound : lookupKey items (itemKey it) = some it)
    (hnd : (items.map itemKey).Nodup) (pid : String) :
    sumAvail (save_inventory_item items it₂) pid = sumAvail items pid +
      (if it.product_id = pid then
        it₂.available_quantity - it.available_quantity else 0) := by
  induction items with
  | nil => exact absurd hfound (by simp [lookupKey])
  | cons x xs ih =>
    have hndc := List.nodup_cons.mp
      (show (itemKey x :: xs.map itemKey).Nodup from hnd)
    by_cases hx : itemKey x = itemKey it
    · have hxit : x = it := by
        rw [lookupKey, List.find?_cons_of_pos _ (by simp [hx])] at hfound
        injection hfound
      subst hxit
      have hsave : save_inventory_item (x :: xs) it₂ = it₂ :: xs := by
        rw [save_inventory_item,
          if_pos (by simp [List.any_cons, hx.symm.trans hk2.symm])]
        rw [List.map_cons, if_pos (hx.trans hk2.symm)]
        rw [map_replace_no_match xs it₂ (fun y hy hk => hndc.1
          ((hk.trans hk2) ▸ List.mem_map.mpr ⟨y, hy, rfl⟩))]
      rw [hsave, sumAvail_cons, sumAvail_cons, hp2]
      by_cases hpid : x.product_id = pid
      · rw [if_pos hpid, if_pos hpid, if_pos hpid]
        ring
      · rw [if_neg hpid, if_neg hpid, if_neg hpid]
        ring
    · have hfound' : lookupKey xs (itemKey it) = some it := by
        rw [lookupKey, List.find?_cons_of_neg _ (by simp [hx])] at hfound
        exact hfound
      rw [save_cons_ne x xs it₂ (fun h => hx (h.trans hk2)), sumAvail_cons,
        sumAvail_cons, ih hfound' hndc.2]
      ring

/-- The apply loop succeeds when every planned entry is present with
enough availability (as holds when applying against the planning
snapshot itself). -/
theorem applyGo_total (now : Nat) : ∀ (plan : Plan)
    (items : List InventoryItem) (recd roll : List (String × Int)),
    (plan.map (fun e => encodeKey e.1.1 e.1.2)).Nodup →
    (∀ e ∈ plan, ∃ it, lookupKey items (encodeKey e.1.1 e.1.2) = some it ∧
      0 < e.2 ∧ e.2 ≤ it.available_quantity) →
    ∃ ri, applyGo now plan items recd roll = .ok ri := by
  intro plan
  induction plan with
  | nil => intro items recd roll _ _; exact ⟨_, rfl⟩
  | cons e rest ih =>
    intro items recd roll hnd hfeas
    obtain ⟨⟨p, w⟩, q⟩ := e
    obtain ⟨it, hfind, hq, hav⟩ := hfeas ((p, w), q) (List.mem_cons_self _ _)
    have hndc := List.nodup_cons.mp
      (show (encodeKey p w ::
        rest.map (fun e => encodeKey e.1.1 e.1.2)).Nodup from hnd)
    have hkey : itemKey it = encodeKey p w := (lookupKey_mem items _ it hfind).2
    have hres : it.reserve q now = some (true, reservedItem it q now) := by
      rw [InventoryItem.reserve, if_neg (by omega), if_pos (by omega)]
      rfl
    have hfeas' : ∀ e' ∈ rest, ∃ it', lookupKey
        (save_inventory_item items (reservedItem it q now))
        (encodeKey e'.1.1 e'.1.2) = some it' ∧
        0 < e'.2 ∧ e'.2 ≤ it'.available_quantity := by
      intro e' he'
      obtain ⟨it', hfind', hq', hav'⟩ := hfeas e' (List.mem_cons_of_mem _ he')
      refine ⟨it', ?_, hq', hav'⟩
      rw [save_lookup_other items _ _, hfind']
      rw [itemKey_reservedItem, hkey]
      intro hcontra
      exact hndc.1 (hcontra ▸ List.mem_map.mpr ⟨e', he', rfl⟩)
    obtain ⟨ri, hok⟩ := ih (save_inventory_item items (reservedItem it q now))
      (setAssoc recd (encodeKey p w) q) (roll ++ [(encodeKey p w, q)])
      hndc.2 hfeas'
    refine ⟨ri, ?_⟩
    rw [applyGo]
    simp only [show find_inventory_item items p w = some it from hfind, hres]
    exact hok

/-- The apply loop preserves the store invariant. -/
theorem applyGo_wf (now : Nat) : ∀ (plan : Plan)
    (items : List InventoryItem) (recd roll : List (String × Int))
    (ri : List (String × Int) × List InventoryItem),
    WFItems items → applyGo now plan items recd roll = .ok ri →
    WFItems ri.2 := by
  intro plan
  induction plan with
  | nil =>
    intro items recd roll ri hwf h
    rw [applyGo] at h
    injection h with h'
    rw [← h']
    exact hwf
  | cons e rest ih =>
    intro items recd roll ri hwf h
    obtain ⟨⟨p, w⟩, q⟩ := e
    rw [applyGo] at h
    cases hfind : find_inventory_item items p w with
    | none =>
      simp only [hfind] at h
      exact absurd h (by simp)
    | some it =>
      simp only [hfind] at h
      cases hres : it.reserve q now with
      | none =>
        simp only [hres] at h
        exact absurd h (by simp)
      | some bi =>
        obtain ⟨b, it₂⟩ := bi
        cases b with
        | false =>
          simp only [hres] at h
          exact absurd h (by simp)
        | true =>
          simp only [hres] at h
          obtain ⟨hq, hav, hit₂⟩ := reserve_eq_some_true it q now it₂ hres
          subst hit₂
          have hitmem : it ∈ items :=
            (lookupKey_mem items _ it
              (find_inventory_item_eq items p w ▸ hfind)).1
          refine ih _ _ _ ri ⟨?_, ?_⟩ h
          · rw [save_keys_of_present items (reservedItem it q now)
              ⟨it, hitmem, rfl⟩]
            exact hwf.1
          · intro y hy
            rcases save_mem items _ y hy with h1 | h1
            · exact hwf.2 y h1
            · subst h1
              have := hwf.2 it hitmem
              exact ⟨by dsimp only [reservedItem]; omega,
                by dsimp only [reservedItem]; omega⟩

/-- Applying a plan subtracts exactly each product's allocated total
from its availability sum. -/
theorem applyGo_sumAvail (now : Nat) : ∀ (plan : Plan)
    (items : List InventoryItem) (recd roll : List (String × Int))
    (ri : List (String × Int) × List InventoryItem),
    (plan.map (fun e => encodeKey e.1.1 e.1.2)).Nodup →
    (items.map itemKey).Nodup →
    (∀ e ∈ plan, ∃ it, lookupKey items (encodeKey e.1.1 e.1.2) = some it ∧
      it.product_id = e.1.1) →
    applyGo now plan items recd roll = .ok ri →
    ∀ pid, sumAvail ri.2 pid = sumAvail items pid - allocSum plan pid := by
  intro plan
  induction plan with
  | nil =>
    intro items recd roll ri _ _ _ h pid
    rw [applyGo] at h
    injection h with h'
    rw [← h']
    simp [allocSum]
  | cons e rest ih =>
    intro items recd roll ri hnd hik hprod h pid
    obtain ⟨⟨p, w⟩, q⟩ := e
    rw [applyGo] at h
    cases hfind : find_inventory_item items p w with
    | none =>
      simp only [hfind] at h
      exact absurd h (by simp)
    | some it =>
      simp only [hfind] at h
      cases hres : it.reserve q now with
      | none =>
        simp only [hres] at h
        exact absurd h (by simp)
      | some bi =>
        obtain ⟨b, it₂⟩ := bi
        cases b with
        | false =>
          simp only [hres] at h
          exact absurd h (by simp)
        | true =>
          simp only [hres] at h
          obtain ⟨hq, hav, hit₂⟩ := reserve_eq_some_true it q now it₂ hres
          subst hit₂
          obtain ⟨it', hfind', hprod'⟩ := hprod ((p, w), q)
            (List.mem_cons_self _ _)
          have hit' : it' = it := by
            rw [find_inventory_item_eq] at hfind
            rw [hfind] at hfind'
            injection hfind' with hval
            exact hval.symm
          rw [hit'] at hprod'
          have hkey : itemKey it = encodeKey p w :=
            (lookupKey_mem items _ it
              (find_inventory_item_eq items p w ▸ hfind)).2
          have hitmem : it ∈ items :=
            (lookupKey_mem items _ it
              (find_inventory_item_eq items p w ▸ hfind)).1
          have hndc := List.nodup_cons.mp
            (show (encodeKey p w ::
              rest.map (fun e => encodeKey e.1.1 e.1.2)).Nodup from hnd)
          have hsum1 : sumAvail (save_inventory_item items
              (reservedItem it q now)) pid = sumAvail items pid +
              (if it.product_id = pid then
                (reservedItem it q now).available_quantity -
                  it.available_quantity else 0) :=
            sumAvail_save items it (reservedItem it q now) rfl rfl
              (hkey ▸ (find_inventory_item_eq items p w ▸ hfind)) hik pid
          have hik1 : ((save_inventory_item items
              (reservedItem it q now)).map itemKey).Nodup := by
            rw [save_keys_of_present items (reservedItem it q now)
              ⟨it, hitmem, rfl⟩]
            exact hik
          have hprod1 : ∀ e' ∈ rest, ∃ it₀, lookupKey
              (save_inventory_item items (reservedItem it q now))
              (encodeKey e'.1.1 e'.1.2) = some it₀ ∧
              it₀.product_id = e'.1.1 := by
            intro e' he'
            obtain ⟨it₀, hl, hp₀⟩ := hprod e' (List.mem_cons_of_mem _ he')
            refine ⟨it₀, ?_, hp₀⟩
            rw [save_lookup_other items _ _, hl]
            rw [itemKey_reservedItem, hkey]
            intro hcontra
            exact hndc.1 (hcontra ▸ List.mem_map.mpr ⟨e', he', rfl⟩)
          have ihr := ih _ _ _ ri hndc.2 hik1 hprod1 h pid
          rw [ihr, hsum1, allocSum_cons]
          by_cases hpid : p = pid
          · rw [if_pos (show it.product_id = pid from hprod'.trans hpid),
              if_pos hpid]
            dsimp only [reservedItem]
            ring
          · rw [if_neg (show ¬ it.product_id = pid from
                fun hc => hpid (hprod'.symm.trans hc)), if_neg hpid]
            ring

/-! ## C9: no overselling under the serialized service lock -/

/-- C9: two `reserve_items` calls each requesting a product's full
available stock, serialized by the coarse service lock: whichever runs
first succeeds, and the second then fails with InsufficientInventory
(planning finds the product exhausted), mutating nothing — so the two
never both succeed. -/
theorem no_oversell (st : ServiceState) (p : String) (qty : Int)
    (c1 c2 rid1 rid2 : String) (now now2 : Nat)
    (hwf : WFItems st.items) (hqty : qty = sumAvail st.items p)
    (hpos : 0 < qty) :
    ∃ st1, reserve_items [⟨p, qty⟩] c1 rid1 st now = (.ok rid1, st1) ∧
      reserve_items [⟨p, qty⟩] c2 rid2 st1 now2 =
        (.error .insufficientInventory, st1) := by
  have hnn : ∀ it ∈ st.items, 0 ≤ it.available_quantity :=
    fun it h => (hwf.2 it h).1
  have hnotnone : plan_inventory_allocation [⟨p, qty⟩] st.items ≠ none := by
    intro hn
    obtain ⟨c, hc, hlt⟩ :=
      (planGo_none_iff st.items hnn [⟨p, qty⟩] []).mp hn
    rw [List.mem_singleton] at hc
    subst hc
    have hlt' : sumAvail st.items p < qty := hlt
    rw [← hqty] at hlt'
    exact absurd hlt' (by omega)
  obtain ⟨plan, hplan⟩ := Option.ne_none_iff_exists'.mp hnotnone
  have hsound := planGo_sound st.items [⟨p, qty⟩] [] plan (by simp) hplan
  have hpairs := planGo_keys_nodup st.items [⟨p, qty⟩] [] plan (by simp) hplan
  have hnd := plan_string_keys_nodup st.items plan hwf.1 hsound hpairs
  have hfeas : ∀ e ∈ plan, ∃ it,
      lookupKey st.items (encodeKey e.1.1 e.1.2) = some it ∧
      0 < e.2 ∧ e.2 ≤ it.available_quantity := by
    intro e he
    obtain ⟨it, hmem, hp1, hw1, hq1, hav1⟩ := hsound e he
    refine ⟨it, ?_, hq1, hav1⟩
    have hik : itemKey it = encodeKey e.1.1 e.1.2 := by
      rw [itemKey, hp1, hw1]
      rfl
    rw [← hik]
    exact lookupKey_self_of_nodup st.items hwf.1 it hmem
  have hprodh : ∀ e ∈ plan, ∃ it,
      lookupKey st.items (encodeKey e.1.1 e.1.2) = some it ∧
      it.product_id = e.1.1 := by
    intro e he
    obtain ⟨it', hmem, hp1, hw1, _, _⟩ := hsound e he
    have hik' : itemKey it' = encodeKey e.1.1 e.1.2 := by
      rw [itemKey, hp1, hw1]
      rfl
    refine ⟨it', ?_, hp1⟩
    rw [← hik']
    exact lookupKey_self_of_nodup st.items hwf.1 it' hmem
  obtain ⟨ri, happly⟩ := applyGo_total now plan st.items [] [] hnd hfeas
  have hq1 : ∀ c ∈ [(⟨p, qty⟩ : CartItem)], 0 < c.quantity := by
    intro c hc
    rw [List.mem_singleton] at hc
    subst hc
    exact hpos
  have halloc : allocSum plan p = qty :=
    (planGo_sum st.items hnn hwf.1 [⟨p, qty⟩] [] plan hq1 (by simp)
      (by simp) hplan).1 ⟨p, qty⟩ (List.mem_singleton_self _)
  have hwf1 : WFItems ri.2 := applyGo_wf now plan st.items [] [] ri hwf happly
  have hnn1 : ∀ it ∈ ri.2, 0 ≤ it.available_quantity :=
    fun it h => (hwf1.2 it h).1
  have hsum1 : sumAvail ri.2 p = 0 := by
    rw [applyGo_sumAvail now plan st.items [] [] ri hnd hwf.1 hprodh happly p,
      halloc, ← hqty]
    omega
  have hplan2 : plan_inventory_allocation [⟨p, qty⟩] ri.2 = none :=
    (planGo_none_iff ri.2 hnn1 [⟨p, qty⟩] []).mpr
      ⟨⟨p, qty⟩, List.mem_singleton_self _,
        show sumAvail ri.2 p < qty by rw [hsum1]; omega⟩
  have hne : plan ≠ [] := by
    intro h
    rw [h] at halloc
    rw [show allocSum [] p = 0 from rfl] at halloc
    omega
  refine ⟨⟨ri.2, save_reservation st.reservations
      (InventoryReservation.create rid1 c1 ri.1
        default_reservation_expiry_minutes now)⟩, ?_, ?_⟩
  · rw [reserve_items, reserve_items_from]
    simp only [hplan]
    rw [if_neg hne]
    simp only [happly]
  · rw [reserve_items, reserve_items_from]
    simp only [hplan2]

/-- Witness for C9 over a single 5-available entry, both calls asking
for all 5. -/
theorem no_oversell_witness :
    ∃ st1, reserve_items [⟨"P", 5⟩] "c1" "r1"
        ⟨[⟨"P", "W1", 5, 0, 5, 0, 0⟩], []⟩ 0 = (.ok "r1", st1) ∧
      reserve_items [⟨"P", 5⟩] "c2" "r2" st1 1 =
        (.error .insufficientInventory, st1) :=
  no_oversell ⟨[⟨"P", "W1", 5, 0, 5, 0, 0⟩], []⟩ "P" 5 "c1" "c2" "r1" "r2" 0 1
    ⟨by decide, by decide⟩ (by decide) (by decide)
